import Mathlib

/-!
# Verification of the Py-Sort file organizer (`src/py_sort.py`)

This file gives a shallow embedding of the move-log-based organization engine
of `py_sort.py` and proves properties of it.

Modelling conventions:
* A filesystem path (`pathlib.Path`) is a root flag plus a list of components.
  Joining (`/`) splits its argument on `'/'` exactly as `pathlib` does;
  `str(path)` and `Path(string)` are `pathToString` and `parsePath`.
* The filesystem is a finite map from paths to file contents (a `Nat` payload,
  also used as the file's `st_size`) together with a list of directories.
* The per-directory move-log file `py_sort_moves.json` is modelled separately
  from the file tree as a `LogFile` (missing / undecodable / parsed JSON).
* Interactive prompts are pure parameters: the undo confirmation is a `Bool`;
  the retry loops of the source never fire because filesystem primitives are
  modelled as succeeding (the claims under verification all assume runs
  without filesystem errors or retry declines).
* Wall-clock timestamps are abstracted by the constant string "ts"; the
  engine never reads the timestamp field back.
* Python `str.lower` is modelled on ASCII letters (`lowerChar`).
* An uncaught Python exception is modelled by `Option`: `undo` returns `none`
  when a log record holds a non-string path value (where `Path(value)` would
  raise an uncaught `TypeError` in the source).
-/

/-- ASCII single-character lowercasing, modelling `str.lower` on ASCII. -/
def lowerChar (c : Char) : Char :=
  if h : 65 ≤ c.toNat ∧ c.toNat ≤ 90 then
    Char.ofNatAux (c.toNat + 32) (Or.inl (by omega))
  else c

/-- Modelling `str.lower` (ASCII range). -/
def lowerString (s : String) : String :=
  String.mk (s.data.map lowerChar)

/-- Paths: `pathlib.Path` as a root flag (absolute?) plus components.
`Path(".")` is `⟨false, []⟩`, `Path("/")` is `⟨true, []⟩`. -/
structure FPath where
  root : Bool
  comps : List String
deriving DecidableEq, Repr

/-- Split a character list on `'/'`, dropping empty segments, as `pathlib`
does when parsing a path string. The first argument is the remaining input,
the second the (reversed) characters of the segment currently being read. -/
def splitPartsAux : List Char → List Char → List String
  | [], acc => if acc.isEmpty then [] else [String.mk acc.reverse]
  | c :: cs, acc =>
    if c = '/' then
      if acc.isEmpty then splitPartsAux cs [] else String.mk acc.reverse :: splitPartsAux cs []
    else splitPartsAux cs (c :: acc)

def splitParts (cs : List Char) : List String := splitPartsAux cs []

/-- `pathlib` path joining: `p / s` (splits `s` on `'/'`). -/
def FPath.join (p : FPath) (s : String) : FPath :=
  ⟨p.root, p.comps ++ splitParts s.data⟩

/-- `Path.parent`. -/
def FPath.parent (p : FPath) : FPath := ⟨p.root, p.comps.dropLast⟩

/-- `Path.name`. -/
def FPath.name (p : FPath) : String := (p.comps.getLast?).getD ""

/-- Characters of `str(path)` (components interleaved with `'/'`). -/
def compsToChars : List String → List Char
  | [] => []
  | s :: rest =>
    s.data ++ (match rest with
               | [] => []
               | _ :: _ => '/' :: compsToChars rest)

/-- `str(path)`. -/
def pathToString (p : FPath) : String :=
  String.mk ((if p.root then ['/'] else []) ++ compsToChars p.comps)

/-- Leading-slash test (`Path.is_absolute` on POSIX). -/
def startsWithSlash : List Char → Bool
  | '/' :: _ => true
  | _ => false

/-- `Path(string)`  (`is_absolute` = leading slash). -/
def parsePath (s : String) : FPath :=
  ⟨startsWithSlash s.data, splitParts s.data⟩

/-- A legal single path component: nonempty, no separator, not one of the
special components `"."` / `".."` that `pathlib` treats specially. -/
def ValidName (n : String) : Prop :=
  n.data ≠ [] ∧ '/' ∉ n.data ∧ n ≠ "." ∧ n ≠ ".."

instance : DecidablePred ValidName := fun n => by
  unfold ValidName; infer_instance

/-! ## Rule resolution (`load_sorting_rules`, `find_target_folder`,
`get_file_extension`) -/

/-- A sorting-rule set: category name to extension list, in the iteration
order of the JSON object / Python dict. -/
abbrev Rules := List (String × List String)

/-- `get_default_sorting_rules` from the source. -/
def getDefaultSortingRules : Rules :=
  [("Images", [".jpg", ".jpeg", ".png", ".gif", ".bmp", ".svg", ".webp", ".tiff", ".ico", ".raw",
               ".heic", ".heif", ".cr2", ".nef", ".arw", ".dng", ".psd"]),
   ("Documents", [".pdf", ".doc", ".docx", ".txt", ".rtf", ".odt", ".pages", ".md", ".tex",
                  ".epub", ".mobi", ".azw", ".azw3", ".log"]),
   ("Videos", [".mp4", ".avi", ".mov", ".wmv", ".flv", ".webm", ".mkv", ".m4v", ".3gp",
               ".mpg", ".mpeg", ".vob", ".ogv"]),
   ("Audio", [".mp3", ".wav", ".flac", ".aac", ".ogg", ".m4a", ".wma", ".opus", ".aiff",
              ".au", ".mid", ".midi"]),
   ("Archives", [".zip", ".rar", ".7z", ".tar", ".gz", ".bz2", ".xz", ".tar.gz", ".tar.bz2",
                 ".cab", ".iso", ".img"]),
   ("Code", [".py", ".js", ".html", ".css", ".java", ".cpp", ".c", ".php", ".rb", ".go",
             ".rs", ".ts", ".jsx", ".tsx", ".swift", ".kt", ".scala", ".sh", ".bash",
             ".json", ".xml", ".yaml", ".yml", ".sql"]),
   ("Spreadsheets", [".xls", ".xlsx", ".csv", ".ods", ".numbers", ".tsv", ".xlsm"]),
   ("Presentations", [".ppt", ".pptx", ".odp", ".key", ".pps", ".ppsx"]),
   ("Executables", [".exe", ".msi", ".deb", ".rpm", ".dmg", ".app", ".apk", ".jar"])]

/-- `load_sorting_rules`: a parsed config, or the default table on any
read/parse failure (`none`). -/
def loadSortingRules (cfg : Option Rules) : Rules :=
  cfg.getD getDefaultSortingRules

/-- `Path.suffix` (CPython: the part from the last dot, empty when the dot is
the first character or there is nothing after it). -/
def pySuffix (s : String) : String :=
  let rev := s.data.reverse
  let after := rev.takeWhile (fun c => !(c = '.' : Bool))
  match rev.dropWhile (fun c => !(c = '.' : Bool)) with
  | [] => ""
  | _ :: before => if after.isEmpty || before.isEmpty then "" else String.mk ('.' :: after.reverse)

/-- `get_file_extension`: the suffix of the file's name, lowercased. -/
def getFileExtension (nm : String) : String := lowerString (pySuffix nm)

/-- `find_target_folder`: first category whose list contains the extension,
else `"Other"`. -/
def findTargetFolder (ext : String) (rules : Rules) : String :=
  match rules with
  | [] => "Other"
  | (cat, exts) :: rest => if ext ∈ exts then cat else findTargetFolder ext rest

/-! ## JSON values and the move-log file (`log_move`) -/

/-- JSON values (the move log is JSON). -/
inductive Json where
  | null : Json
  | str : String → Json
  | num : Int → Json
  | arr : List Json → Json
  | obj : List (String × Json) → Json

/-- The on-disk state of `py_sort_moves.json`: absent, present but not
decodable as JSON, or a parsed JSON value. -/
inductive LogFile where
  | missing : LogFile
  | invalid : LogFile
  | parsed : Json → LogFile

def Json.isArr : Json → Bool
  | Json.arr _ => true
  | _ => false

def isObj : Json → Bool
  | Json.obj _ => true
  | _ => false

/-- Dictionary lookup on a JSON object (`move.get(key)`); `none` both for a
missing key and for a non-object. -/
def jGet : Json → String → Option Json
  | Json.obj kvs, k => (kvs.find? (fun e => e.1 = k)).map (fun e => e.2)
  | _, _ => none

/-- The recovery read of `log_move`: existing entries, or `[]` when the file
is absent, is not valid JSON (`json.JSONDecodeError`), or does not hold an
array (`not isinstance(moves, list)`). -/
def loadMovesForAppend : LogFile → List Json
  | LogFile.missing => []
  | LogFile.invalid => []
  | LogFile.parsed (Json.arr ms) => ms
  | LogFile.parsed _ => []

/-- The record appended by `log_move` (timestamp abstracted). -/
def moveRecord (orig tgt : FPath) : Json :=
  Json.obj [("timestamp", Json.str "ts"),
            ("original", Json.str (pathToString orig)),
            ("new", Json.str (pathToString tgt))]

/-- `log_move`: load (with recovery), append, rewrite the whole file. -/
def logMove (lf : LogFile) (orig tgt : FPath) : LogFile :=
  LogFile.parsed (Json.arr (loadMovesForAppend lf ++ [moveRecord orig tgt]))

/-! ## The filesystem model -/

/-- Files (path, payload: content identity also read as `st_size`) and
directories. -/
structure FS where
  files : List (FPath × Nat)
  dirs : List FPath
deriving DecidableEq

def FS.lookupFile (fs : FS) (p : FPath) : Option Nat :=
  (fs.files.find? (fun e => e.1 = p)).map (fun e => e.2)

/-- `Path.exists`: a file or a directory is at `p`. -/
def FS.pathExists (fs : FS) (p : FPath) : Bool :=
  fs.files.any (fun e => e.1 = p) || fs.dirs.any (fun q => q = p)

/-- `shutil.move` (same-volume rename). Only ever invoked on an existing
source in the error-free runs being modelled; a missing source is a no-op. -/
def FS.move (fs : FS) (src dst : FPath) : FS :=
  match fs.lookupFile src with
  | some v => { fs with files := (dst, v) :: fs.files.filter (fun e => !(e.1 = src : Bool)) }
  | none => fs

/-- All ancestors of a path (itself included). -/
def ancestorPaths (p : FPath) : List FPath :=
  (List.range (p.comps.length + 1)).map (fun i => ⟨p.root, p.comps.take i⟩)

/-- `create_folder_if_not_exists` / `mkdir(parents=True, exist_ok=True)`:
no-op when something exists at `p`, otherwise the directory and its missing
ancestors come into existence. -/
def FS.mkdirParents (fs : FS) (p : FPath) : FS :=
  if fs.pathExists p then fs else { fs with dirs := ancestorPaths p ++ fs.dirs }

/-! ## The organize engine (`organize_files`) -/

/-- Per-run state of `organize_files`: the filesystem, the move-log file and
the in-memory statistics. -/
structure OrgState where
  fs : FS
  lf : LogFile
  moved : Nat
  skipped : Nat
  totalSize : Nat
  stats : List (String × Nat × Nat)

/-- `category_stats.setdefault(...)` then increment count/size. -/
def statsAdd (stats : List (String × Nat × Nat)) (cat : String) (sz : Nat) :
    List (String × Nat × Nat) :=
  if stats.any (fun e => e.1 = cat) then
    stats.map (fun e => if e.1 = cat then (e.1, e.2.1 + 1, e.2.2 + sz) else e)
  else stats ++ [(cat, 1, sz)]

/-- The two filenames excluded from organization. -/
def excludedNames : List String := ["py_sort.log", "py_sort_moves.json"]

/-- The body of the per-file loop of `organize_files` for one file. -/
def processOne (d : FPath) (rules : Rules) (dryRun : Bool) (st : OrgState) (fp : FPath) :
    OrgState :=
  let ext := getFileExtension fp.name
  let tf := findTargetFolder ext rules
  let sz := (st.fs.lookupFile fp).getD 0
  let targetDir := d.join tf
  let target := targetDir.join fp.name
  if st.fs.pathExists target then
    { st with skipped := st.skipped + 1 }
  else if dryRun then
    { st with moved := st.moved + 1, totalSize := st.totalSize + sz,
              stats := statsAdd st.stats tf sz }
  else
    let fs1 := st.fs.mkdirParents targetDir
    let fs2 := fs1.move fp target
    { st with fs := fs2, lf := logMove st.lf fp target, moved := st.moved + 1,
              totalSize := st.totalSize + sz, stats := statsAdd st.stats tf sz }

/-- `files_to_organize`: the plain files directly inside `d`, excluding the
tool's own log files by name. -/
def listingOf (fs : FS) (d : FPath) : List FPath :=
  (fs.files.map Prod.fst).filter
    (fun p => decide (p.parent = d) && !(excludedNames.contains p.name))

/-- `organize_files(directory, dry_run)`, over already-loaded rules.  Returns
unchanged state when the directory is absent / not a directory or there is
nothing to organize. -/
def organize (d : FPath) (rules : Rules) (dryRun : Bool) (fs : FS) (lf : LogFile) :
    OrgState :=
  if fs.dirs.contains d then
    let files := listingOf fs d
    if files.isEmpty then ⟨fs, lf, 0, 0, 0, []⟩
    else files.foldl (processOne d rules dryRun) ⟨fs, lf, 0, 0, 0, []⟩
  else ⟨fs, lf, 0, 0, 0, []⟩

/-! ## The undo engine (`undo_organization`) -/

/-- Per-run state of `undo_organization`. -/
structure UState where
  fs : FS
  restored : Nat
  skipped : Nat
deriving DecidableEq

/-- Reading `move.get(key, '')` for use in `Path(...)`: a missing key gives
`''`; a non-string value makes the `Path` constructor raise (`none`). -/
def pathField (m : Json) (k : String) : Option String :=
  match jGet m k with
  | none => some ""
  | some (Json.str s) => some s
  | some _ => none

/-- The body of the per-record undo loop, for one record (processed in
reverse log order by the caller). `none` models an uncaught exception. -/
def undoStep (st : UState) (m : Json) : Option UState :=
  match pathField m "original", pathField m "new" with
  | some o, some nw =>
    let op := parsePath o
    let np := parsePath nw
    if op.root && np.root then
      if st.fs.pathExists np then
        if st.fs.pathExists op then
          some { st with skipped := st.skipped + 1 }
        else
          let fs1 := st.fs.mkdirParents op.parent
          some { st with fs := fs1.move np op, restored := st.restored + 1 }
      else some { st with skipped := st.skipped + 1 }
    else some { st with skipped := st.skipped + 1 }
  | _, _ => none

def processMoves : List Json → UState → Option UState
  | [], st => some st
  | m :: ms, st => (undoStep st m).bind (processMoves ms)

/-- `undo_organization(directory)`.  Early returns (absent directory, absent
log, undecodable log, malformed log, empty log, declined confirmation) leave
the filesystem untouched with zero counts. -/
def undo (d : FPath) (fs : FS) (lf : LogFile) (confirm : Bool) : Option UState :=
  if fs.dirs.contains d then
    match lf with
    | LogFile.missing => some ⟨fs, 0, 0⟩
    | LogFile.invalid => some ⟨fs, 0, 0⟩
    | LogFile.parsed j =>
      match j with
      | Json.arr ms =>
        if ms.all isObj then
          if ms.isEmpty then some ⟨fs, 0, 0⟩
          else if confirm then processMoves ms.reverse ⟨fs, 0, 0⟩
          else some ⟨fs, 0, 0⟩
        else some ⟨fs, 0, 0⟩
      | _ => some ⟨fs, 0, 0⟩
  else some ⟨fs, 0, 0⟩

/-! ## Path lemmas -/

theorem stringMk_data (s : String) : String.mk s.data = s := by
  cases s; rfl

theorem splitPartsAux_append_no_slash (w : List Char) (hw : '/' ∉ w) :
    ∀ (tail acc : List Char),
      splitPartsAux (w ++ tail) acc = splitPartsAux tail (w.reverse ++ acc) := by
  induction w with
  | nil => intro tail acc; simp
  | cons c cs ih =>
    intro tail acc
    have hc : ¬(c = '/') := fun h => hw (h ▸ List.mem_cons_self c cs)
    have hcs : '/' ∉ cs := fun h => hw (List.mem_cons_of_mem c h)
    show splitPartsAux (c :: (cs ++ tail)) acc = _
    rw [show splitPartsAux (c :: (cs ++ tail)) acc = splitPartsAux (cs ++ tail) (c :: acc) by
      simp [splitPartsAux, hc]]
    rw [ih hcs tail (c :: acc)]
    simp

theorem splitPartsAux_nil (acc : List Char) (h : acc ≠ []) :
    splitPartsAux [] acc = [String.mk acc.reverse] := by
  simp only [splitPartsAux, List.isEmpty_eq_true]
  rw [if_neg h]

theorem splitParts_single (w : List Char) (hne : w ≠ []) (hw : '/' ∉ w) :
    splitParts w = [String.mk w] := by
  have h1 : splitPartsAux (w ++ []) [] = splitPartsAux [] (w.reverse ++ []) :=
    splitPartsAux_append_no_slash w hw [] []
  simp only [List.append_nil] at h1
  unfold splitParts
  rw [h1, splitPartsAux_nil _ (by simpa using hne), List.reverse_reverse]

theorem splitParts_of_valid (s : String) (h1 : s.data ≠ []) (h2 : '/' ∉ s.data) :
    splitParts s.data = [s] := by
  rw [splitParts_single s.data h1 h2, stringMk_data]

theorem FPath.join_valid (p : FPath) (s : String) (h1 : s.data ≠ []) (h2 : '/' ∉ s.data) :
    p.join s = ⟨p.root, p.comps ++ [s]⟩ := by
  unfold FPath.join
  rw [splitParts_of_valid s h1 h2]

theorem compsToChars_valid_split (comps : List String)
    (h : ∀ c ∈ comps, c.data ≠ [] ∧ '/' ∉ c.data) :
    splitParts (compsToChars comps) = comps := by
  induction comps with
  | nil => rfl
  | cons c rest ih =>
    have hc := h c (List.mem_cons_self c rest)
    have hrest : ∀ x ∈ rest, x.data ≠ [] ∧ '/' ∉ x.data :=
      fun x hx => h x (List.mem_cons_of_mem c hx)
    cases rest with
    | nil =>
      simp only [compsToChars, List.append_nil]
      rw [splitParts_single c.data hc.1 hc.2, stringMk_data]
    | cons r rs =>
      show splitPartsAux (c.data ++ '/' :: compsToChars (r :: rs)) [] = _
      rw [splitPartsAux_append_no_slash c.data hc.2]
      simp only [List.append_nil]
      show (if ('/' : Char) = '/' then _ else _) = _
      rw [if_pos rfl]
      have hacc : ¬(c.data.reverse.isEmpty = true) := by
        simpa using hc.1
      simp only [hacc, if_neg, Bool.false_eq_true, ite_false]
      have := ih hrest
      unfold splitParts at this
      rw [this, List.reverse_reverse, stringMk_data]

theorem startsWithSlash_cons (c : Char) (cs : List Char) (h : c ≠ '/') :
    startsWithSlash (c :: cs) = false := by
  unfold startsWithSlash
  split
  · next heq =>
    exact absurd (List.head_eq_of_cons_eq heq) h
  · rfl

theorem splitParts_cons_slash (cs : List Char) :
    splitParts ('/' :: cs) = splitParts cs := by
  show splitPartsAux ('/' :: cs) [] = splitPartsAux cs []
  simp [splitPartsAux]

theorem parsePath_pathToString (p : FPath)
    (h : ∀ c ∈ p.comps, c.data ≠ [] ∧ '/' ∉ c.data) :
    parsePath (pathToString p) = p := by
  obtain ⟨r, comps⟩ := p
  have hsplitAll : splitParts (compsToChars comps) = comps :=
    compsToChars_valid_split comps (by simpa using h)
  cases r with
  | true =>
    show parsePath (String.mk ('/' :: compsToChars comps)) = _
    unfold parsePath
    refine congrArg₂ FPath.mk rfl ?_
    show splitParts ('/' :: compsToChars comps) = comps
    rw [splitParts_cons_slash, hsplitAll]
  | false =>
    show parsePath (String.mk (compsToChars comps)) = _
    unfold parsePath
    refine congrArg₂ FPath.mk ?_ hsplitAll
    cases comps with
    | nil => rfl
    | cons c rest =>
      have hc := h c (by simp)
      obtain ⟨c0, cr, hd⟩ : ∃ c0 cr, c.data = c0 :: cr := by
        cases hdd : c.data with
        | nil => exact absurd hdd hc.1
        | cons a b => exact ⟨a, b, rfl⟩
      have hc0 : c0 ≠ '/' := by
        intro hh
        apply hc.2
        rw [hd, hh]
        exact List.mem_cons_self _ _
      cases rest with
      | nil =>
        show startsWithSlash (c.data ++ []) = false
        rw [hd, List.cons_append]
        exact startsWithSlash_cons c0 _ hc0
      | cons r rs =>
        show startsWithSlash (c.data ++ ('/' :: compsToChars (r :: rs))) = false
        rw [hd, List.cons_append]
        exact startsWithSlash_cons c0 _ hc0

/-! ## Lowercasing lemmas -/

theorem charOfNatAux_toNat (n : Nat) (h : n.isValidChar) : (Char.ofNatAux n h).toNat = n := rfl

theorem lowerChar_toNat_of_upper (c : Char) (h : 65 ≤ c.toNat ∧ c.toNat ≤ 90) :
    (lowerChar c).toNat = c.toNat + 32 := by
  unfold lowerChar
  rw [dif_pos h]
  exact charOfNatAux_toNat _ _

theorem lowerChar_eq_of_not_upper (c : Char) (h : ¬(65 ≤ c.toNat ∧ c.toNat ≤ 90)) :
    lowerChar c = c := by
  unfold lowerChar
  rw [dif_neg h]

theorem lowerChar_idem (c : Char) : lowerChar (lowerChar c) = lowerChar c := by
  by_cases h : 65 ≤ c.toNat ∧ c.toNat ≤ 90
  · apply lowerChar_eq_of_not_upper
    rw [lowerChar_toNat_of_upper c h]
    omega
  · rw [lowerChar_eq_of_not_upper c h]
    exact lowerChar_eq_of_not_upper c h

theorem lowerString_idem (s : String) : lowerString (lowerString s) = lowerString s := by
  unfold lowerString
  show String.mk ((s.data.map lowerChar).map lowerChar) = _
  rw [List.map_map]
  exact congrArg String.mk (List.map_congr_left (fun c _ => lowerChar_idem c))

/-- The rule set with every extension entry that is not written in lowercase
removed. -/
def lowerOnlyRules (rules : Rules) : Rules :=
  rules.map (fun ce => (ce.1, ce.2.filter (fun e => lowerString e = e)))

theorem findTargetFolder_lowerOnly (ext : String) (hx : lowerString ext = ext) (rules : Rules) :
    findTargetFolder ext rules = findTargetFolder ext (lowerOnlyRules rules) := by
  induction rules with
  | nil => rfl
  | cons ce rest ih =>
    obtain ⟨cat, exts⟩ := ce
    have hshape : lowerOnlyRules ((cat, exts) :: rest)
        = (cat, exts.filter (fun e => decide (lowerString e = e))) :: lowerOnlyRules rest := rfl
    rw [hshape]
    show (if ext ∈ exts then cat else findTargetFolder ext rest)
        = (if ext ∈ exts.filter (fun e => decide (lowerString e = e)) then cat
           else findTargetFolder ext (lowerOnlyRules rest))
    have hmem : ext ∈ exts.filter (fun e => decide (lowerString e = e)) ↔ ext ∈ exts := by
      rw [List.mem_filter]
      exact ⟨fun hh => hh.1, fun hh => ⟨hh, by simpa using hx⟩⟩
    by_cases hm : ext ∈ exts
    · rw [if_pos hm, if_pos (hmem.mpr hm)]
    · rw [if_neg hm, if_neg (fun hh => hm (hmem.mp hh)), ih]

/-- C5 counterexample: the spec claims extension lookup succeeds "regardless
of the letter case in which that extension is written in the configuration
file".  With the configuration rule `Images: [".JPG"]`, the file
`photo.JPG` — whose extension as written in the configuration is `.JPG` —
resolves to `"Other"`, not `"Images"`: lookup lowercases only the file's
suffix and compares it verbatim with the configured strings. -/
theorem extension_lookup_config_case_cex :
    getFileExtension "photo.JPG" = ".jpg"
    ∧ (".JPG" ∈ [".JPG"])
    ∧ findTargetFolder (getFileExtension "photo.JPG") [("Images", [".JPG"])] = "Other" := by
  refine ⟨by decide, by simp, by decide⟩

/-- C5 (amended): extension lookup lowercases the file's suffix before the
comparison (so lookup is insensitive to the case the extension carries in the
file's name), but configuration entries are matched verbatim against that
lowercased suffix: configuration extensions not written entirely in lowercase
can never match and are inert. -/
theorem extension_lookup_case_sensitivity (nm : String) (rules : Rules) :
    lowerString (getFileExtension nm) = getFileExtension nm
    ∧ findTargetFolder (getFileExtension nm) rules
        = findTargetFolder (getFileExtension nm) (lowerOnlyRules rules) :=
  ⟨lowerString_idem _, findTargetFolder_lowerOnly _ (lowerString_idem _) rules⟩

/-! ## C2: dry run mutates nothing -/

theorem processOne_dry_preserves (d : FPath) (rules : Rules) (st : OrgState) (fp : FPath) :
    (processOne d rules true st fp).fs = st.fs ∧ (processOne d rules true st fp).lf = st.lf := by
  simp only [processOne]
  split
  · exact ⟨rfl, rfl⟩
  · simp

theorem foldl_processOne_dry (d : FPath) (rules : Rules) (L : List FPath) :
    ∀ st : OrgState,
      ((L.foldl (processOne d rules true) st).fs = st.fs
        ∧ (L.foldl (processOne d rules true) st).lf = st.lf) := by
  induction L with
  | nil => exact fun st => ⟨rfl, rfl⟩
  | cons fp rest ih =>
    intro st
    obtain ⟨h1, h2⟩ := ih (processOne d rules true st fp)
    obtain ⟨g1, g2⟩ := processOne_dry_preserves d rules st fp
    exact ⟨h1.trans g1, h2.trans g2⟩

/-- C2: a dry-run `organize_files` performs no filesystem mutation and no
move-log write: for every directory, rule set, filesystem and log-file state,
the filesystem and the move-log file after `organize(dryRun := true)` are
exactly the ones before; only in-memory statistics are produced. -/
theorem organize_dryRun_no_mutation (d : FPath) (rules : Rules) (fs : FS) (lf : LogFile) :
    (organize d rules true fs lf).fs = fs ∧ (organize d rules true fs lf).lf = lf := by
  unfold organize
  split
  · dsimp only
    split
    · exact ⟨rfl, rfl⟩
    · exact foldl_processOne_dry d rules _ ⟨fs, lf, 0, 0, 0, []⟩
  · exact ⟨rfl, rfl⟩

/-! ## C7: collisions are skipped, never overwritten -/

/-- C7: whenever the computed target path of a file already exists (dry run
or real run alike), the per-file step of `organize_files` only increments the
skip counter: the filesystem (so both the existing target file and the source
file) and the move log are left exactly as they were. -/
theorem organize_collision_skips (d : FPath) (rules : Rules) (dryRun : Bool) (st : OrgState)
    (fp : FPath)
    (h : st.fs.pathExists
        ((d.join (findTargetFolder (getFileExtension fp.name) rules)).join fp.name) = true) :
    processOne d rules dryRun st fp = { st with skipped := st.skipped + 1 } := by
  simp only [processOne]
  rw [if_pos h]

/-- C7 witness: a concrete state in which `t/Other/a` already exists; the file
`t/a` is skipped and nothing changes but the counter. -/
theorem organize_collision_skips_witness :
    processOne ⟨true, ["t"]⟩ [] false
      ⟨⟨[(⟨true, ["t", "Other", "a"]⟩, 1), (⟨true, ["t", "a"]⟩, 2)], [⟨true, ["t"]⟩]⟩,
        LogFile.missing, 0, 0, 0, []⟩ ⟨true, ["t", "a"]⟩
      = { (⟨⟨[(⟨true, ["t", "Other", "a"]⟩, 1), (⟨true, ["t", "a"]⟩, 2)], [⟨true, ["t"]⟩]⟩,
            LogFile.missing, 0, 0, 0, []⟩ : OrgState) with skipped := 0 + 1 } :=
  organize_collision_skips _ _ _ _ _ (by rfl)

/-! ## C8: corrupt log recovery in `log_move` -/

/-- C8: when the move-log file exists but its content is not valid JSON, or
parses to something other than a JSON array, `log_move`'s load step yields the
empty sequence (it does not raise), and the append then rewrites the file as
a valid JSON array holding exactly the one new record. -/
theorem logMove_corrupt_recovery (lf : LogFile) (orig tgt : FPath)
    (h : lf = LogFile.invalid ∨ ∃ j, lf = LogFile.parsed j ∧ j.isArr = false) :
    loadMovesForAppend lf = []
    ∧ logMove lf orig tgt = LogFile.parsed (Json.arr [moveRecord orig tgt]) := by
  have hl : loadMovesForAppend lf = [] := by
    rcases h with h | ⟨j, rfl, hj⟩
    · subst h; rfl
    · cases j <;> first | rfl | exact absurd hj (by simp [Json.isArr])
  refine ⟨hl, ?_⟩
  unfold logMove
  rw [hl]
  rfl

/-- C8 witness: a log file with undecodable content, then one append. -/
theorem logMove_corrupt_recovery_witness :
    loadMovesForAppend LogFile.invalid = []
    ∧ logMove LogFile.invalid ⟨true, ["t", "a"]⟩ ⟨true, ["t", "Images", "a"]⟩
        = LogFile.parsed (Json.arr [moveRecord ⟨true, ["t", "a"]⟩ ⟨true, ["t", "Images", "a"]⟩]) :=
  logMove_corrupt_recovery LogFile.invalid _ _ (Or.inl rfl)

/-! ## C6: resolution semantics of `find_target_folder` -/

theorem findTargetFolder_of_no_match (ext : String) (rules : Rules)
    (h : ∀ ce ∈ rules, ext ∉ ce.2) : findTargetFolder ext rules = "Other" := by
  induction rules with
  | nil => rfl
  | cons ce rest ih =>
    obtain ⟨cat, exts⟩ := ce
    show (if ext ∈ exts then cat else findTargetFolder ext rest) = "Other"
    rw [if_neg (h (cat, exts) (List.mem_cons_self _ _)), ih]
    exact fun ce hce => h ce (List.mem_cons_of_mem _ hce)

theorem findTargetFolder_first_match (ext : String) :
    ∀ (pre : List (String × List String)) (cat : String) (exts : List String)
      (post : List (String × List String)), ext ∈ exts → (∀ ce ∈ pre, ext ∉ ce.2) →
      findTargetFolder ext (pre ++ (cat, exts) :: post) = cat := by
  intro pre
  induction pre with
  | nil =>
    intro cat exts post hm _
    show (if ext ∈ exts then cat else _) = cat
    rw [if_pos hm]
  | cons ce rest ih =>
    intro cat exts post hm hpre
    obtain ⟨c, e⟩ := ce
    show (if ext ∈ e then c else findTargetFolder ext (rest ++ (cat, exts) :: post)) = cat
    rw [if_neg (hpre (c, e) (List.mem_cons_self _ _))]
    exact ih cat exts post hm (fun x hx => hpre x (List.mem_cons_of_mem _ hx))

theorem findTargetFolder_of_unique (ext : String) (rules : Rules) (cat : String)
    (exts : List String) (hmem : (cat, exts) ∈ rules) (hin : ext ∈ exts)
    (huniq : ∀ ce ∈ rules, ext ∈ ce.2 → ce = (cat, exts)) :
    findTargetFolder ext rules = cat := by
  induction rules with
  | nil => cases hmem
  | cons ce rest ih =>
    obtain ⟨c, e⟩ := ce
    show (if ext ∈ e then c else findTargetFolder ext rest) = cat
    by_cases hm : ext ∈ e
    · rw [if_pos hm]
      have := huniq (c, e) (List.mem_cons_self _ _) hm
      exact congrArg Prod.fst this
    · rw [if_neg hm]
      have hmem2 : (cat, exts) ∈ rest := by
        rcases List.mem_cons.mp hmem with heq | h2
        · have he : exts = e := congrArg Prod.snd heq
          exact absurd (he ▸ hin) hm
        · exact h2
      exact ih hmem2 (fun x hx hxin => huniq x (List.mem_cons_of_mem _ hx) hxin)

/-- C6: `find_target_folder` resolution.  (1) An extension occurring in
exactly one category's list resolves to that category; (2) an extension in no
list resolves to `"Other"`; (3) in general the first matching category in the
mapping's iteration order wins. -/
theorem findTargetFolder_resolution (ext : String) (rules : Rules) :
    (∀ cat exts, (cat, exts) ∈ rules → ext ∈ exts →
        (∀ ce ∈ rules, ext ∈ ce.2 → ce = (cat, exts)) → findTargetFolder ext rules = cat)
    ∧ ((∀ ce ∈ rules, ext ∉ ce.2) → findTargetFolder ext rules = "Other")
    ∧ (∀ pre cat exts post, rules = pre ++ (cat, exts) :: post → ext ∈ exts →
        (∀ ce ∈ pre, ext ∉ ce.2) → findTargetFolder ext rules = cat) :=
  ⟨fun cat exts hmem hin huniq => findTargetFolder_of_unique ext rules cat exts hmem hin huniq,
   findTargetFolder_of_no_match ext rules,
   fun pre cat exts post heq hin hpre =>
     heq ▸ findTargetFolder_first_match ext pre cat exts post hin hpre⟩

/-- C6 witness: on the rules `Images: [".png"], Docs: [".png", ".txt"]` the
unique extension `.txt` resolves to `Docs`, the unknown `.zzz` resolves to
`Other`, and the duplicated `.png` resolves to the first match `Images`. -/
theorem findTargetFolder_resolution_witness :
    findTargetFolder ".txt" [("Images", [".png"]), ("Docs", [".png", ".txt"])] = "Docs"
    ∧ findTargetFolder ".zzz" [("Images", [".png"]), ("Docs", [".png", ".txt"])] = "Other"
    ∧ findTargetFolder ".png" [("Images", [".png"]), ("Docs", [".png", ".txt"])] = "Images" :=
  ⟨(findTargetFolder_resolution ".txt" _).1 "Docs" [".png", ".txt"] (by simp) (by simp)
      (by decide),
   (findTargetFolder_resolution ".zzz" _).2.1 (by decide),
   (findTargetFolder_resolution ".png" _).2.2 [] "Images" [".png"] [("Docs", [".png", ".txt"])]
      rfl (by simp) (by simp)⟩

/-! ## Undo: record typing and skipping lemmas (C9, C10) -/

/-- The stored value under `k` is usable by `Path(move.get(k, ''))` without
raising: absent, or a string. -/
def pathFieldOk (m : Json) (k : String) : Bool :=
  match jGet m k with
  | none => true
  | some (Json.str _) => true
  | some _ => false

/-- A log record whose two path fields are usable (absent or strings). -/
def recWellTyped (m : Json) : Bool :=
  pathFieldOk m "original" && pathFieldOk m "new"

/-- The skip counter bumped by one (all the counting undo does on a rejected
record). -/
def bumpSkip (st : UState) : UState := { st with skipped := st.skipped + 1 }

theorem pathField_isSome (m : Json) (k : String) (h : pathFieldOk m k = true) :
    ∃ s, pathField m k = some s := by
  unfold pathFieldOk at h
  unfold pathField
  cases hj : jGet m k with
  | none => exact ⟨"", rfl⟩
  | some j =>
    rw [hj] at h
    cases j with
    | str s => exact ⟨s, rfl⟩
    | null => exact Bool.noConfusion (show false = true from h)
    | num n => exact Bool.noConfusion (show false = true from h)
    | arr a => exact Bool.noConfusion (show false = true from h)
    | obj o => exact Bool.noConfusion (show false = true from h)

theorem undoStep_isSome (st : UState) (m : Json) (h : recWellTyped m = true) :
    ∃ st2, undoStep st m = some st2 := by
  obtain ⟨hko, hkn⟩ := Bool.and_eq_true_iff.mp h
  obtain ⟨o, ho⟩ := pathField_isSome m "original" hko
  obtain ⟨nw, hn⟩ := pathField_isSome m "new" hkn
  unfold undoStep
  rw [ho, hn]
  dsimp only
  split_ifs <;> exact ⟨_, rfl⟩

theorem processMoves_isSome (l : List Json) (hwt : ∀ x ∈ l, recWellTyped x = true) :
    ∀ st, ∃ st2, processMoves l st = some st2 := by
  induction l with
  | nil => exact fun st => ⟨st, rfl⟩
  | cons m ms ih =>
    intro st
    obtain ⟨st1, h1⟩ := undoStep_isSome st m (hwt m (List.mem_cons_self _ _))
    obtain ⟨st2, h2⟩ := ih (fun x hx => hwt x (List.mem_cons_of_mem _ hx)) st1
    refine ⟨st2, ?_⟩
    show (undoStep st m).bind (processMoves ms) = some st2
    rw [h1, Option.some_bind]
    exact h2

theorem processMoves_append (a b : List Json) :
    ∀ st, processMoves (a ++ b) st = (processMoves a st).bind (fun st2 => processMoves b st2) := by
  induction a with
  | nil => intro st; rfl
  | cons m ms ih =>
    intro st
    show (undoStep st m).bind (processMoves (ms ++ b))
        = ((undoStep st m).bind (processMoves ms)).bind _
    cases undoStep st m with
    | some st2 =>
      rw [Option.some_bind, Option.some_bind]
      exact ih st2
    | none => rfl

theorem undoStep_bump (st : UState) (m : Json) :
    undoStep (bumpSkip st) m = (undoStep st m).map bumpSkip := by
  unfold undoStep bumpSkip
  cases pathField m "original" <;> cases pathField m "new" <;> try rfl
  dsimp only
  split_ifs <;> rfl

theorem processMoves_bump (l : List Json) :
    ∀ st, processMoves l (bumpSkip st) = (processMoves l st).map bumpSkip := by
  induction l with
  | nil => intro st; rfl
  | cons m ms ih =>
    intro st
    show (undoStep (bumpSkip st) m).bind (processMoves ms)
        = ((undoStep st m).bind (processMoves ms)).map bumpSkip
    rw [undoStep_bump]
    cases undoStep st m with
    | some st2 =>
      rw [Option.map_some', Option.some_bind, Option.some_bind]
      exact ih st2
    | none => rfl

theorem undo_parsed_arr (d : FPath) (fs : FS) (ms : List Json)
    (hd : fs.dirs.contains d = true) (hobj : ms.all isObj = true) :
    undo d fs (LogFile.parsed (Json.arr ms)) true = processMoves ms.reverse ⟨fs, 0, 0⟩ := by
  unfold undo
  rw [if_pos hd]
  show (if ms.all isObj = true then _ else _) = _
  rw [if_pos hobj]
  by_cases he : ms.isEmpty = true
  · rw [if_pos he]
    have : ms = [] := by
      cases ms with
      | nil => rfl
      | cons a b => simp [List.isEmpty] at he
    subst this
    rfl
  · rw [if_neg he, if_pos rfl]

/-- Common skeleton for C9/C10: a record in the middle of the log on which
`undoStep` merely bumps the skip counter is transparent to the rest of the
run: the final state is the state of the run without that record, with one
more skip. -/
theorem undo_skip_record_aux (d : FPath) (fs : FS) (l1 l2 : List Json) (m : Json)
    (hd : fs.dirs.contains d = true)
    (hobj : (l1 ++ m :: l2).all isObj = true)
    (hwt : ∀ x ∈ l1 ++ l2, recWellTyped x = true)
    (hskip : ∀ st : UState, undoStep st m = some (bumpSkip st)) :
    ∃ st : UState, undo d fs (LogFile.parsed (Json.arr (l1 ++ l2))) true = some st
      ∧ undo d fs (LogFile.parsed (Json.arr (l1 ++ m :: l2))) true
          = some ⟨st.fs, st.restored, st.skipped + 1⟩ := by
  have hobjAll : ∀ x ∈ l1 ++ m :: l2, isObj x = true := List.all_eq_true.mp hobj
  have hobj2 : (l1 ++ l2).all isObj = true := by
    refine List.all_eq_true.mpr (fun x hx => hobjAll x ?_)
    rcases List.mem_append.mp hx with h | h
    · exact List.mem_append.mpr (Or.inl h)
    · exact List.mem_append.mpr (Or.inr (List.mem_cons_of_mem _ h))
  have hwt2 : ∀ x ∈ l2.reverse, recWellTyped x = true := by
    intro x hx
    exact hwt x (List.mem_append.mpr (Or.inr (List.mem_reverse.mp hx)))
  have hwt1 : ∀ x ∈ l1.reverse, recWellTyped x = true := by
    intro x hx
    exact hwt x (List.mem_append.mpr (Or.inl (List.mem_reverse.mp hx)))
  obtain ⟨stA, hA⟩ := processMoves_isSome l2.reverse hwt2 ⟨fs, 0, 0⟩
  obtain ⟨stB, hB⟩ := processMoves_isSome l1.reverse hwt1 stA
  refine ⟨stB, ?_, ?_⟩
  · rw [undo_parsed_arr d fs _ hd hobj2]
    rw [show (l1 ++ l2).reverse = l2.reverse ++ l1.reverse by simp]
    rw [processMoves_append, hA, Option.some_bind]
    exact hB
  · rw [undo_parsed_arr d fs _ hd hobj]
    rw [show (l1 ++ m :: l2).reverse = l2.reverse ++ (m :: l1.reverse) by simp]
    rw [processMoves_append, hA, Option.some_bind]
    show (undoStep stA m).bind (processMoves l1.reverse) = _
    rw [hskip stA, Option.some_bind, processMoves_bump, hB]
    rfl

theorem undoStep_not_abs (st : UState) (m : Json) (o nw : String)
    (ho : pathField m "original" = some o) (hn : pathField m "new" = some nw)
    (habs : (startsWithSlash o.data && startsWithSlash nw.data) = false) :
    undoStep st m = some (bumpSkip st) := by
  unfold undoStep
  rw [ho, hn]
  dsimp only
  have hc : ((parsePath o).root && (parsePath nw).root) = false := habs
  rw [if_neg (by simp [hc])]
  rfl

/-- C9: in an undo run over a log that contains a record whose stored
"original" or "new" path is not absolute, that record is only counted as
skipped (the filesystem is untouched by it), and the run still processes
every other record: the outcome is exactly the outcome of the run on the log
without that record, with the skip count one higher.  (The other records are
assumed to carry string path values, since a record with a non-string path
value would abort the whole run with an uncaught exception.) -/
theorem undo_relative_record_skipped (d : FPath) (fs : FS) (l1 l2 : List Json) (m : Json)
    (o nw : String)
    (hd : fs.dirs.contains d = true)
    (hobj : (l1 ++ m :: l2).all isObj = true)
    (hwt : ∀ x ∈ l1 ++ l2, recWellTyped x = true)
    (ho : pathField m "original" = some o)
    (hn : pathField m "new" = some nw)
    (habs : ((parsePath o).root && (parsePath nw).root) = false) :
    ∃ st : UState, undo d fs (LogFile.parsed (Json.arr (l1 ++ l2))) true = some st
      ∧ undo d fs (LogFile.parsed (Json.arr (l1 ++ m :: l2))) true
          = some ⟨st.fs, st.restored, st.skipped + 1⟩ :=
  undo_skip_record_aux d fs l1 l2 m hd hobj hwt
    (fun st => undoStep_not_abs st m o nw ho hn habs)

/-- C9 witness: a two-record log. The second record stores the relative paths
`a.txt` and `Docs/a.txt`; undo over the full log gives the same state as undo
over the log without it, with one extra skip. -/
theorem undo_relative_record_skipped_witness :
    ∃ st : UState,
      undo ⟨true, ["t"]⟩
          ⟨[(⟨true, ["t", "Images", "a.png"]⟩, 5)], [⟨true, ["t"]⟩, ⟨true, ["t", "Images"]⟩]⟩
          (LogFile.parsed (Json.arr
            ([moveRecord ⟨true, ["t", "a.png"]⟩ ⟨true, ["t", "Images", "a.png"]⟩] ++ []))) true
        = some st
      ∧ undo ⟨true, ["t"]⟩
          ⟨[(⟨true, ["t", "Images", "a.png"]⟩, 5)], [⟨true, ["t"]⟩, ⟨true, ["t", "Images"]⟩]⟩
          (LogFile.parsed (Json.arr
            ([moveRecord ⟨true, ["t", "a.png"]⟩ ⟨true, ["t", "Images", "a.png"]⟩]
              ++ Json.obj [("original", Json.str "a.txt"), ("new", Json.str "Docs/a.txt")]
              :: []))) true
        = some ⟨st.fs, st.restored, st.skipped + 1⟩ :=
  undo_relative_record_skipped ⟨true, ["t"]⟩
    ⟨[(⟨true, ["t", "Images", "a.png"]⟩, 5)], [⟨true, ["t"]⟩, ⟨true, ["t", "Images"]⟩]⟩
    [moveRecord ⟨true, ["t", "a.png"]⟩ ⟨true, ["t", "Images", "a.png"]⟩] []
    (Json.obj [("original", Json.str "a.txt"), ("new", Json.str "Docs/a.txt")])
    "a.txt" "Docs/a.txt" (by rfl) (by rfl) (by decide) (by rfl) (by rfl) (by rfl)

/-- C10 counterexample: the record holding only a timestamp and a numeric
"new" value is a JSON object lacking the "original" key, so the claim says it
is skipped and undo never raises on it; it does pass the all-dicts
well-formedness check, yet the run then aborts with an uncaught `TypeError`
raised by `Path(123)` — in the model, undo returns `none` instead of a
result, and no later record is processed. -/
theorem undo_missing_key_raises_cex :
    isObj (Json.obj [("timestamp", Json.str "ts"), ("new", Json.num 123)]) = true
    ∧ jGet (Json.obj [("timestamp", Json.str "ts"), ("new", Json.num 123)]) "original" = none
    ∧ undo ⟨true, ["t"]⟩
        ⟨[(⟨true, ["t", "Images", "a.png"]⟩, 5)], [⟨true, ["t"]⟩, ⟨true, ["t", "Images"]⟩]⟩
        (LogFile.parsed (Json.arr
          [moveRecord ⟨true, ["t", "a.png"]⟩ ⟨true, ["t", "Images", "a.png"]⟩,
           Json.obj [("timestamp", Json.str "ts"), ("new", Json.num 123)]])) true
      = none :=
  ⟨rfl, rfl, rfl⟩

theorem undoStep_missing_key (st : UState) (m : Json)
    (hok : pathFieldOk m "original" = true ∧ pathFieldOk m "new" = true)
    (hmiss : jGet m "original" = none ∨ jGet m "new" = none) :
    undoStep st m = some (bumpSkip st) := by
  rcases hmiss with h | h
  · have ho : pathField m "original" = some "" := by unfold pathField; rw [h]
    obtain ⟨nw, hn⟩ := pathField_isSome m "new" hok.2
    exact undoStep_not_abs st m "" nw ho hn rfl
  · have hn : pathField m "new" = some "" := by unfold pathField; rw [h]
    obtain ⟨o, ho⟩ := pathField_isSome m "original" hok.1
    exact undoStep_not_abs st m o "" ho hn (Bool.and_false _)

/-- C10 amended: a log record that is a JSON object but lacks the "original"
or "new" key passes the `isinstance(..., dict)` well-formedness check, and
provided each of its two path fields is absent or holds a string, the missing
value defaults to the empty string, which is not an absolute path, so the
record is only skipped with the skip counter incremented and the rest of the
log is processed exactly as if the record were not there.  The string
proviso is necessary: a non-string value under the key that is present makes
`Path(...)` raise an uncaught `TypeError`, aborting the whole run (see the
counterexample above). -/
theorem undo_missing_key_skipped (d : FPath) (fs : FS) (l1 l2 : List Json) (m : Json)
    (hd : fs.dirs.contains d = true)
    (hobj : (l1 ++ m :: l2).all isObj = true)
    (hwt : ∀ x ∈ l1 ++ l2, recWellTyped x = true)
    (hok : pathFieldOk m "original" = true ∧ pathFieldOk m "new" = true)
    (hmiss : jGet m "original" = none ∨ jGet m "new" = none) :
    ∃ st : UState, undo d fs (LogFile.parsed (Json.arr (l1 ++ l2))) true = some st
      ∧ undo d fs (LogFile.parsed (Json.arr (l1 ++ m :: l2))) true
          = some ⟨st.fs, st.restored, st.skipped + 1⟩ :=
  undo_skip_record_aux d fs l1 l2 m hd hobj hwt
    (fun st => undoStep_missing_key st m hok hmiss)

/-- C10 witness: a record holding only a timestamp and a "new" value (no
"original" key) is skipped; the remaining record is still processed. -/
theorem undo_missing_key_skipped_witness :
    ∃ st : UState,
      undo ⟨true, ["t"]⟩
          ⟨[(⟨true, ["t", "Images", "a.png"]⟩, 5)], [⟨true, ["t"]⟩, ⟨true, ["t", "Images"]⟩]⟩
          (LogFile.parsed (Json.arr
            ([] ++ [moveRecord ⟨true, ["t", "a.png"]⟩ ⟨true, ["t", "Images", "a.png"]⟩]))) true
        = some st
      ∧ undo ⟨true, ["t"]⟩
          ⟨[(⟨true, ["t", "Images", "a.png"]⟩, 5)], [⟨true, ["t"]⟩, ⟨true, ["t", "Images"]⟩]⟩
          (LogFile.parsed (Json.arr
            ([] ++ Json.obj [("timestamp", Json.str "ts"), ("new", Json.str "/t/Images/a.png")]
              :: [moveRecord ⟨true, ["t", "a.png"]⟩ ⟨true, ["t", "Images", "a.png"]⟩]))) true
        = some ⟨st.fs, st.restored, st.skipped + 1⟩ :=
  undo_missing_key_skipped ⟨true, ["t"]⟩
    ⟨[(⟨true, ["t", "Images", "a.png"]⟩, 5)], [⟨true, ["t"]⟩, ⟨true, ["t", "Images"]⟩]⟩
    [] [moveRecord ⟨true, ["t", "a.png"]⟩ ⟨true, ["t", "Images", "a.png"]⟩]
    (Json.obj [("timestamp", Json.str "ts"), ("new", Json.str "/t/Images/a.png")])
    (by rfl) (by decide) (by decide) ⟨by rfl, by rfl⟩ (Or.inl (by rfl))

/-! ## Path and filesystem helper lemmas for the organize proofs -/

theorem FPath.join_valid2 (p : FPath) (n : String) (h : ValidName n) :
    p.join n = ⟨p.root, p.comps ++ [n]⟩ :=
  FPath.join_valid p n h.1 h.2.1

theorem FPath.name_join (p : FPath) (n : String) (h : ValidName n) :
    (p.join n).name = n := by
  rw [FPath.join_valid2 p n h]
  unfold FPath.name
  simp

theorem eq_join_of_parent (d fp : FPath) (hp : fp.parent = d) (hne : fp.comps ≠ [])
    (hv : ValidName fp.name) : fp = d.join fp.name := by
  rw [FPath.join_valid2 d fp.name hv]
  obtain ⟨r, comps⟩ := fp
  have hproj : FPath.mk r comps.dropLast = d := hp
  subst hproj
  show FPath.mk r comps = FPath.mk r (comps.dropLast ++ [FPath.name ⟨r, comps⟩])
  refine congrArg (FPath.mk r) ?_
  have hlast : (FPath.name ⟨r, comps⟩) = comps.getLast hne := by
    show (comps.getLast?).getD "" = _
    rw [List.getLast?_eq_getLast comps hne]
    rfl
  rw [hlast]
  exact (List.dropLast_append_getLast hne).symm

theorem ne_of_comps_length (p q : FPath) (h : p.comps.length ≠ q.comps.length) : p ≠ q :=
  fun heq => h (congrArg (fun x => x.comps.length) heq)

/-- The category returned by `find_target_folder` is a legal folder name
whenever all rule categories are. -/
theorem findTargetFolder_valid (ext : String) (rules : Rules)
    (h : ∀ ce ∈ rules, ValidName ce.1) : ValidName (findTargetFolder ext rules) := by
  induction rules with
  | nil => show ValidName "Other"; decide
  | cons ce rest ih =>
    obtain ⟨cat, exts⟩ := ce
    show ValidName (if ext ∈ exts then cat else findTargetFolder ext rest)
    by_cases hm : ext ∈ exts
    · rw [if_pos hm]; exact h (cat, exts) (List.mem_cons_self _ _)
    · rw [if_neg hm]; exact ih (fun x hx => h x (List.mem_cons_of_mem _ hx))

/-- The target path of one file in `organize_files`. -/
def orgTarget (d : FPath) (rules : Rules) (fp : FPath) : FPath :=
  (d.join (findTargetFolder (getFileExtension fp.name) rules)).join fp.name

theorem orgTarget_comps (d : FPath) (rules : Rules) (fp : FPath)
    (hv : ValidName fp.name) (hrules : ∀ ce ∈ rules, ValidName ce.1) :
    (orgTarget d rules fp).comps
      = d.comps ++ [findTargetFolder (getFileExtension fp.name) rules, fp.name]
    ∧ (orgTarget d rules fp).root = d.root := by
  unfold orgTarget
  rw [FPath.join_valid2 d _ (findTargetFolder_valid _ _ hrules),
    FPath.join_valid2 _ _ hv]
  constructor
  · show (d.comps ++ [findTargetFolder (getFileExtension fp.name) rules]) ++ [fp.name] = _
    simp
  · rfl


theorem orgTarget_name (d : FPath) (rules : Rules) (fp : FPath) (hv : ValidName fp.name) :
    (orgTarget d rules fp).name = fp.name :=
  FPath.name_join _ _ hv

theorem anyKey_filter_ne (l : List (FPath × Nat)) (src x : FPath) (h : x ≠ src) :
    (l.filter (fun e => !(e.1 = src : Bool))).any (fun e => (e.1 = x : Bool))
      = l.any (fun e => (e.1 = x : Bool)) := by
  induction l with
  | nil => rfl
  | cons e rest ih =>
    by_cases hs : e.1 = src
    · have h1 : (decide (e.1 = src)) = true := decide_eq_true hs
      have h2 : (decide (e.1 = x)) = false := by
        apply decide_eq_false
        intro hx
        exact h (hx ▸ hs ▸ rfl)
      simp only [List.filter_cons, List.any_cons, h1, h2, Bool.not_true, Bool.false_or]
      exact ih
    · have h1 : (decide (e.1 = src)) = false := decide_eq_false hs
      simp only [List.filter_cons, List.any_cons, h1, Bool.not_false, if_pos]
      rw [ih]

theorem pathExists_move_other (fs : FS) (src dst x : FPath) (h1 : x ≠ dst) (h2 : x ≠ src) :
    (fs.move src dst).pathExists x = fs.pathExists x := by
  unfold FS.move
  cases fs.lookupFile src with
  | none => rfl
  | some v =>
    show (((dst, v) :: fs.files.filter _).any (fun e => (e.1 = x : Bool))
        || fs.dirs.any (fun q => (q = x : Bool))) = _
    rw [List.any_cons]
    have hd : (decide (dst = x)) = false := decide_eq_false (fun hx => h1 hx.symm)
    rw [hd, Bool.false_or, anyKey_filter_ne fs.files src x h2]
    rfl

theorem pathExists_mkdirParents_other (fs : FS) (p x : FPath)
    (h : ∀ a ∈ ancestorPaths p, a ≠ x) :
    (fs.mkdirParents p).pathExists x = fs.pathExists x := by
  unfold FS.mkdirParents
  by_cases he : fs.pathExists p = true
  · rw [if_pos he]
  · rw [if_neg he]
    show (fs.files.any _ || (ancestorPaths p ++ fs.dirs).any (fun q => (q = x : Bool))) = _
    rw [List.any_append]
    have ha : (ancestorPaths p).any (fun q => (q = x : Bool)) = false := by
      rw [List.any_eq_false]
      intro a hmem
      exact fun hx => h a hmem (of_decide_eq_true hx)
    rw [ha, Bool.false_or]
    rfl

/-! ## C3: dry-run counts against real-run counts -/

theorem processOne_eq (d : FPath) (rules : Rules) (dryRun : Bool) (st : OrgState) (fp : FPath) :
    processOne d rules dryRun st fp =
      if st.fs.pathExists (orgTarget d rules fp) then { st with skipped := st.skipped + 1 }
      else if dryRun then
        { st with moved := st.moved + 1,
                  totalSize := st.totalSize + (st.fs.lookupFile fp).getD 0,
                  stats := statsAdd st.stats (findTargetFolder (getFileExtension fp.name) rules)
                    ((st.fs.lookupFile fp).getD 0) }
      else
        { st with
            fs := (st.fs.mkdirParents
                    (d.join (findTargetFolder (getFileExtension fp.name) rules))).move fp
                    (orgTarget d rules fp),
            lf := logMove st.lf fp (orgTarget d rules fp),
            moved := st.moved + 1,
            totalSize := st.totalSize + (st.fs.lookupFile fp).getD 0,
            stats := statsAdd st.stats (findTargetFolder (getFileExtension fp.name) rules)
              ((st.fs.lookupFile fp).getD 0) } := rfl

theorem organize_eq (d : FPath) (rules : Rules) (dryRun : Bool) (fs : FS) (lf : LogFile) :
    organize d rules dryRun fs lf =
      if fs.dirs.contains d then
        if (listingOf fs d).isEmpty then ⟨fs, lf, 0, 0, 0, []⟩
        else (listingOf fs d).foldl (processOne d rules dryRun) ⟨fs, lf, 0, 0, 0, []⟩
      else ⟨fs, lf, 0, 0, 0, []⟩ := rfl

theorem counts_fold_dry_real (d : FPath) (rules : Rules)
    (hrules : ∀ ce ∈ rules, ValidName ce.1) :
    ∀ (L : List FPath) (sd sr : OrgState),
      (∀ fp ∈ L, fp.parent = d ∧ fp.comps ≠ [] ∧ ValidName fp.name) →
      ((L.map FPath.name).Nodup) →
      (∀ fp ∈ L,
        sr.fs.pathExists (orgTarget d rules fp) = sd.fs.pathExists (orgTarget d rules fp)) →
      sd.moved = sr.moved → sd.skipped = sr.skipped →
      ((L.foldl (processOne d rules true) sd).moved
          = (L.foldl (processOne d rules false) sr).moved
        ∧ (L.foldl (processOne d rules true) sd).skipped
            = (L.foldl (processOne d rules false) sr).skipped) := by
  intro L
  induction L with
  | nil => intro sd sr _ _ _ hm hs; exact ⟨hm, hs⟩
  | cons fp rest ih =>
    intro sd sr hL hnd hsee hm hs
    have hfp := hL fp (List.mem_cons_self _ _)
    have hrest : ∀ q ∈ rest, q.parent = d ∧ q.comps ≠ [] ∧ ValidName q.name :=
      fun q hq => hL q (List.mem_cons_of_mem _ hq)
    have hndc := List.nodup_cons.mp hnd
    have hfpj : fp = d.join fp.name := eq_join_of_parent d fp hfp.1 hfp.2.1 hfp.2.2
    have hfpcomps : fp.comps = d.comps ++ [fp.name] := by
      conv_lhs => rw [hfpj]
      rw [FPath.join_valid2 d fp.name hfp.2.2]
    simp only [List.foldl_cons]
    by_cases hc : sd.fs.pathExists (orgTarget d rules fp) = true
    · have hcr : sr.fs.pathExists (orgTarget d rules fp) = true := by
        rw [hsee fp (List.mem_cons_self _ _)]; exact hc
      rw [show processOne d rules true sd fp = { sd with skipped := sd.skipped + 1 } by
            rw [processOne_eq, if_pos hc],
          show processOne d rules false sr fp = { sr with skipped := sr.skipped + 1 } by
            rw [processOne_eq, if_pos hcr]]
      exact ih { sd with skipped := sd.skipped + 1 } { sr with skipped := sr.skipped + 1 }
        hrest hndc.2 (fun q hq => hsee q (List.mem_cons_of_mem _ hq)) hm (by rw [hs])
    · have hcr : ¬(sr.fs.pathExists (orgTarget d rules fp) = true) := by
        rw [hsee fp (List.mem_cons_self _ _)]; exact hc
      have hdry : processOne d rules true sd fp
          = { sd with
                moved := sd.moved + 1
                totalSize := sd.totalSize + (sd.fs.lookupFile fp).getD 0
                stats := statsAdd sd.stats (findTargetFolder (getFileExtension fp.name) rules)
                  ((sd.fs.lookupFile fp).getD 0) } := by
        rw [processOne_eq, if_neg hc, if_pos rfl]
      have hreal : processOne d rules false sr fp
          = { sr with
                fs := (sr.fs.mkdirParents
                        (d.join (findTargetFolder (getFileExtension fp.name) rules))).move fp
                        (orgTarget d rules fp)
                lf := logMove sr.lf fp (orgTarget d rules fp)
                moved := sr.moved + 1
                totalSize := sr.totalSize + (sr.fs.lookupFile fp).getD 0
                stats := statsAdd sr.stats (findTargetFolder (getFileExtension fp.name) rules)
                  ((sr.fs.lookupFile fp).getD 0) } := by
        rw [processOne_eq, if_neg hcr, if_neg (by simp)]
      rw [hdry, hreal]
      refine ih _ _ hrest hndc.2 ?_ (by rw [hm]) (by rw [hs])
      intro q hq
      have hqh := hrest q hq
      have hqt := orgTarget_comps d rules q hqh.2.2 hrules
      have hqlen : (orgTarget d rules q).comps.length = d.comps.length + 2 := by
        rw [hqt.1]; simp
      have hne1 : orgTarget d rules q ≠ orgTarget d rules fp := by
        intro heq
        apply hndc.1
        have : (orgTarget d rules q).name = (orgTarget d rules fp).name := congrArg FPath.name heq
        rw [orgTarget_name d rules q hqh.2.2, orgTarget_name d rules fp hfp.2.2] at this
        exact this ▸ List.mem_map_of_mem FPath.name hq
      have hne2 : orgTarget d rules q ≠ fp := by
        apply ne_of_comps_length
        rw [hqlen, hfpcomps]
        simp
      have htd : (d.join (findTargetFolder (getFileExtension fp.name) rules)).comps
          = d.comps ++ [findTargetFolder (getFileExtension fp.name) rules] := by
        rw [FPath.join_valid2 d _ (findTargetFolder_valid _ _ hrules)]
      have hanc : ∀ a ∈ ancestorPaths
          (d.join (findTargetFolder (getFileExtension fp.name) rules)), a ≠ orgTarget d rules q := by
        intro a hmem
        unfold ancestorPaths at hmem
        obtain ⟨i, hi, rfl⟩ := List.mem_map.mp hmem
        apply ne_of_comps_length
        show ((d.join (findTargetFolder (getFileExtension fp.name) rules)).comps.take i).length
            ≠ (orgTarget d rules q).comps.length
        rw [List.length_take, hqlen, htd]
        simp only [List.length_append, List.length_singleton]
        have hminle : min i (d.comps.length + 1) ≤ d.comps.length + 1 := Nat.min_le_right _ _
        omega
      show ((sr.fs.mkdirParents
              (d.join (findTargetFolder (getFileExtension fp.name) rules))).move fp
              (orgTarget d rules fp)).pathExists (orgTarget d rules q)
          = sd.fs.pathExists (orgTarget d rules q)
      rw [pathExists_move_other _ fp (orgTarget d rules fp) (orgTarget d rules q) hne1 hne2,
        pathExists_mkdirParents_other _ _ _ hanc]
      exact hsee q (List.mem_cons_of_mem _ hq)

/-- C3 counterexample: with the rule set `{"x/report.pdf": [".jpg"], "x": [".pdf"]}`
(a category name containing a path separator) over a directory holding
`photo.jpg` and `report.pdf`, the dry run reports 2 moved / 0 skipped, but the
real run — with no filesystem errors and no retry declines — reports
1 moved / 1 skipped: moving `photo.jpg` creates the directory
`x/report.pdf/`, which then occupies `report.pdf`'s target path. -/
theorem organize_dry_real_counts_cex :
    ((organize ⟨true, ["d"]⟩ [("x/report.pdf", [".jpg"]), ("x", [".pdf"])] true
        ⟨[(⟨true, ["d", "photo.jpg"]⟩, 1), (⟨true, ["d", "report.pdf"]⟩, 2)], [⟨true, ["d"]⟩]⟩
        LogFile.missing).moved,
      (organize ⟨true, ["d"]⟩ [("x/report.pdf", [".jpg"]), ("x", [".pdf"])] true
        ⟨[(⟨true, ["d", "photo.jpg"]⟩, 1), (⟨true, ["d", "report.pdf"]⟩, 2)], [⟨true, ["d"]⟩]⟩
        LogFile.missing).skipped) = (2, 0)
    ∧ ((organize ⟨true, ["d"]⟩ [("x/report.pdf", [".jpg"]), ("x", [".pdf"])] false
        ⟨[(⟨true, ["d", "photo.jpg"]⟩, 1), (⟨true, ["d", "report.pdf"]⟩, 2)], [⟨true, ["d"]⟩]⟩
        LogFile.missing).moved,
      (organize ⟨true, ["d"]⟩ [("x/report.pdf", [".jpg"]), ("x", [".pdf"])] false
        ⟨[(⟨true, ["d", "photo.jpg"]⟩, 1), (⟨true, ["d", "report.pdf"]⟩, 2)], [⟨true, ["d"]⟩]⟩
        LogFile.missing).skipped) = (1, 1) :=
  ⟨rfl, rfl⟩

/-- C3 (amended): the moved and skipped counts reported by a dry-run organize
equal the counts a real run on the same unchanged directory with the same
rules reports (no filesystem errors / retry declines, which the model builds
in), provided every category name in the rule set is a single legal path
component; the directory's files are assumed well-formed (distinct paths with
legal names), as on a real filesystem. -/
theorem organize_dry_real_counts_amended (d : FPath) (rules : Rules) (fs : FS)
    (lf lf2 : LogFile)
    (hkeys : (fs.files.map Prod.fst).Nodup)
    (hwf : ∀ p ∈ fs.files.map Prod.fst, p.comps ≠ [] ∧ ValidName p.name)
    (hrules : ∀ ce ∈ rules, ValidName ce.1) :
    (organize d rules true fs lf).moved = (organize d rules false fs lf2).moved
    ∧ (organize d rules true fs lf).skipped = (organize d rules false fs lf2).skipped := by
  rw [organize_eq, organize_eq]
  by_cases hd : fs.dirs.contains d = true
  · rw [if_pos hd, if_pos hd]
    by_cases hl : (listingOf fs d).isEmpty = true
    · rw [if_pos hl, if_pos hl]
      exact ⟨rfl, rfl⟩
    · rw [if_neg hl, if_neg hl]
      have hsub : ∀ p ∈ listingOf fs d, p ∈ fs.files.map Prod.fst ∧ p.parent = d := by
        intro p hp
        obtain ⟨hmem, hpred⟩ := List.mem_filter.mp hp
        exact ⟨hmem, of_decide_eq_true (Bool.and_eq_true_iff.mp hpred).1⟩
      have hLprop : ∀ p ∈ listingOf fs d, p.parent = d ∧ p.comps ≠ [] ∧ ValidName p.name := by
        intro p hp
        obtain ⟨hmem, hpar⟩ := hsub p hp
        exact ⟨hpar, (hwf p hmem).1, (hwf p hmem).2⟩
      have hnodup : ((listingOf fs d).map FPath.name).Nodup := by
        refine List.Nodup.map_on ?_ (hkeys.filter _)
        intro x hx y hy hxy
        have hxp := hLprop x hx
        have hyp := hLprop y hy
        exact (eq_join_of_parent d x hxp.1 hxp.2.1 hxp.2.2).trans
          ((congrArg (fun n => d.join n) hxy).trans
            (eq_join_of_parent d y hyp.1 hyp.2.1 hyp.2.2).symm)
      exact counts_fold_dry_real d rules hrules (listingOf fs d) ⟨fs, lf, 0, 0, 0, []⟩
        ⟨fs, lf2, 0, 0, 0, []⟩ hLprop hnodup (fun fp _ => rfl) rfl rfl
  · rw [if_neg hd, if_neg hd]
    exact ⟨rfl, rfl⟩

/-- C3 witness: a concrete two-file directory with lowercase single-component
default-style rules: dry and real counts agree (1 moved — `a.pdf` to
`Documents/` — and 1 skipped — `b.pdf` already present in `Documents/`). -/
theorem organize_dry_real_counts_amended_witness :
    ((organize ⟨true, ["t"]⟩ [("Documents", [".pdf"])] true
        ⟨[(⟨true, ["t", "a.pdf"]⟩, 1), (⟨true, ["t", "b.pdf"]⟩, 2),
          (⟨true, ["t", "Documents", "b.pdf"]⟩, 3)], [⟨true, ["t"]⟩, ⟨true, ["t", "Documents"]⟩]⟩
        LogFile.missing).moved
      = (organize ⟨true, ["t"]⟩ [("Documents", [".pdf"])] false
        ⟨[(⟨true, ["t", "a.pdf"]⟩, 1), (⟨true, ["t", "b.pdf"]⟩, 2),
          (⟨true, ["t", "Documents", "b.pdf"]⟩, 3)], [⟨true, ["t"]⟩, ⟨true, ["t", "Documents"]⟩]⟩
        LogFile.missing).moved)
    ∧ ((organize ⟨true, ["t"]⟩ [("Documents", [".pdf"])] true
        ⟨[(⟨true, ["t", "a.pdf"]⟩, 1), (⟨true, ["t", "b.pdf"]⟩, 2),
          (⟨true, ["t", "Documents", "b.pdf"]⟩, 3)], [⟨true, ["t"]⟩, ⟨true, ["t", "Documents"]⟩]⟩
        LogFile.missing).skipped
      = (organize ⟨true, ["t"]⟩ [("Documents", [".pdf"])] false
        ⟨[(⟨true, ["t", "a.pdf"]⟩, 1), (⟨true, ["t", "b.pdf"]⟩, 2),
          (⟨true, ["t", "Documents", "b.pdf"]⟩, 3)], [⟨true, ["t"]⟩, ⟨true, ["t", "Documents"]⟩]⟩
        LogFile.missing).skipped) :=
  organize_dry_real_counts_amended ⟨true, ["t"]⟩ [("Documents", [".pdf"])]
    ⟨[(⟨true, ["t", "a.pdf"]⟩, 1), (⟨true, ["t", "b.pdf"]⟩, 2),
      (⟨true, ["t", "Documents", "b.pdf"]⟩, 3)], [⟨true, ["t"]⟩, ⟨true, ["t", "Documents"]⟩]⟩
    LogFile.missing LogFile.missing (by decide) (by decide) (by decide)

/-! ## C4: logged paths on a relative directory argument -/

/-- C4 (code bug exhibited): `organize_files` never resolves the directory
argument to an absolute path, so with the CLI default directory `"."` and a
file `report.pdf` (default rules), the move record appended to the log stores
the relative strings `"report.pdf"` and `"Documents/report.pdf"` — not
absolute paths as the spec requires — and a subsequent undo on the same
directory rejects the record (0 restored, 1 skipped), leaving the file in
`Documents/`. -/
theorem log_paths_not_absolute_on_relative_dir :
    (organize ⟨false, []⟩ getDefaultSortingRules false
        ⟨[(⟨false, ["report.pdf"]⟩, 7)], [⟨false, []⟩]⟩ LogFile.missing).lf
      = LogFile.parsed (Json.arr [Json.obj
          [("timestamp", Json.str "ts"),
           ("original", Json.str "report.pdf"),
           ("new", Json.str "Documents/report.pdf")]])
    ∧ (parsePath "report.pdf").root = false
    ∧ (parsePath "Documents/report.pdf").root = false
    ∧ (undo ⟨false, []⟩
        (organize ⟨false, []⟩ getDefaultSortingRules false
          ⟨[(⟨false, ["report.pdf"]⟩, 7)], [⟨false, []⟩]⟩ LogFile.missing).fs
        (organize ⟨false, []⟩ getDefaultSortingRules false
          ⟨[(⟨false, ["report.pdf"]⟩, 7)], [⟨false, []⟩]⟩ LogFile.missing).lf
        true).map (fun st => (st.fs.lookupFile ⟨false, ["report.pdf"]⟩, st.restored, st.skipped))
      = some (none, 0, 1) :=
  ⟨rfl, rfl, rfl, rfl⟩

/-! ## Helper lemmas for the organize/undo round trip (C1) -/

theorem contains_eq_false_of_not_mem {l : List String} {x : String} (h : x ∉ l) :
    l.contains x = false := by
  cases hc : l.contains x
  · rfl
  · exact absurd (List.elem_iff.mp hc) h

theorem fpath_contains_eq_true_of_mem {l : List FPath} {x : FPath} (h : x ∈ l) :
    l.contains x = true :=
  List.elem_iff.mpr h

theorem FPath.parent_join (p : FPath) (n : String) (h : ValidName n) :
    (p.join n).parent = p := by
  rw [FPath.join_valid2 p n h]
  show FPath.mk p.root ((p.comps ++ [n]).dropLast) = p
  rw [List.dropLast_concat]

theorem FPath.join_comps (p : FPath) (n : String) (h : ValidName n) :
    (p.join n).comps = p.comps ++ [n] := by
  rw [FPath.join_valid2 p n h]

theorem FPath.join_root (p : FPath) (n : String) (h : ValidName n) :
    (p.join n).root = p.root := by
  rw [FPath.join_valid2 p n h]

theorem FPath.join_inj (p : FPath) (a b : String) (ha : ValidName a) (hb : ValidName b)
    (h : p.join a = p.join b) : a = b := by
  have := congrArg FPath.comps h
  rw [FPath.join_comps p a ha, FPath.join_comps p b hb] at this
  have := List.append_cancel_left this
  exact List.singleton_injective this

/-- The per-name category and target of the organize run. -/
def catOfName (rules : Rules) (n : String) : String :=
  findTargetFolder (getFileExtension n) rules

def tgtOfName (d : FPath) (rules : Rules) (n : String) : FPath :=
  (d.join (catOfName rules n)).join n

theorem tgtOfName_comps (d : FPath) (rules : Rules) (n : String)
    (hn : ValidName n) (hc : ValidName (catOfName rules n)) :
    (tgtOfName d rules n).comps = d.comps ++ [catOfName rules n, n] := by
  unfold tgtOfName
  rw [FPath.join_comps _ n hn, FPath.join_comps d _ hc]
  simp

theorem tgtOfName_root (d : FPath) (rules : Rules) (n : String)
    (hn : ValidName n) (hc : ValidName (catOfName rules n)) :
    (tgtOfName d rules n).root = d.root := by
  unfold tgtOfName
  rw [FPath.join_root _ n hn, FPath.join_root d _ hc]

theorem tgtOfName_len (d : FPath) (rules : Rules) (n : String)
    (hn : ValidName n) (hc : ValidName (catOfName rules n)) :
    (tgtOfName d rules n).comps.length = d.comps.length + 2 := by
  rw [tgtOfName_comps d rules n hn hc]
  simp

theorem tgtOfName_ne_of_name_ne (d : FPath) (rules : Rules) (a b : String)
    (ha : ValidName a) (hb : ValidName b)
    (h : a ≠ b) : tgtOfName d rules a ≠ tgtOfName d rules b := by
  intro heq
  apply h
  have := congrArg FPath.name heq
  unfold tgtOfName at this
  rw [FPath.name_join _ a ha, FPath.name_join _ b hb] at this
  exact this

theorem find?_key_skip (l1 l2 : List (FPath × Nat)) (x : FPath) (h : ∀ e ∈ l1, e.1 ≠ x) :
    (l1 ++ l2).find? (fun e => (e.1 = x : Bool)) = l2.find? (fun e => (e.1 = x : Bool)) := by
  induction l1 with
  | nil => rfl
  | cons e es ih =>
    rw [List.cons_append,
      List.find?_cons_of_neg _ (by simp [h e (List.mem_cons_self _ _)]),
      ih (fun a ha => h a (List.mem_cons_of_mem _ ha))]

theorem filter_key_eq_self (l : List (FPath × Nat)) (src : FPath) (h : ∀ e ∈ l, e.1 ≠ src) :
    l.filter (fun e => !(e.1 = src : Bool)) = l := by
  refine List.filter_eq_self.mpr ?_
  intro e he
  simp [h e he]

theorem move_eq_of_shape (fs : FS) (src dst : FPath) (v : Nat)
    (acc rest : List (FPath × Nat))
    (hsplit : fs.files = acc ++ (src, v) :: rest)
    (hacc : ∀ e ∈ acc, e.1 ≠ src) (hrest : ∀ e ∈ rest, e.1 ≠ src) :
    fs.move src dst = ⟨(dst, v) :: (acc ++ rest), fs.dirs⟩ := by
  have hlook : fs.lookupFile src = some v := by
    unfold FS.lookupFile
    rw [hsplit, find?_key_skip acc _ src hacc, List.find?_cons_of_pos _ (by simp)]
    rfl
  unfold FS.move
  rw [hlook]
  show FS.mk ((dst, v) :: fs.files.filter (fun e => !(e.1 = src : Bool))) fs.dirs = _
  rw [hsplit, List.filter_append, List.filter_cons]
  rw [if_neg (by simp), filter_key_eq_self acc src hacc, filter_key_eq_self rest src hrest]

theorem FS.mkdirParents_files (fs : FS) (p : FPath) :
    (fs.mkdirParents p).files = fs.files := by
  unfold FS.mkdirParents
  split <;> rfl

theorem FS.mkdirParents_dirs_mem (fs : FS) (p x : FPath) (hx : x ∈ fs.dirs) :
    x ∈ (fs.mkdirParents p).dirs := by
  unfold FS.mkdirParents
  split
  · exact hx
  · exact List.mem_append.mpr (Or.inr hx)

theorem FS.mkdirParents_dirs_sub (fs : FS) (p x : FPath) (hx : x ∈ (fs.mkdirParents p).dirs) :
    x ∈ fs.dirs ∨ x ∈ ancestorPaths p := by
  unfold FS.mkdirParents at hx
  split at hx
  · exact Or.inl hx
  · rcases List.mem_append.mp hx with h | h
    · exact Or.inr h
    · exact Or.inl h

theorem mem_ancestorPaths_cases (d : FPath) (c : String) (hc : ValidName c) (a : FPath)
    (ha : a ∈ ancestorPaths (d.join c)) :
    a.comps.length ≤ d.comps.length ∨ a = d.join c := by
  unfold ancestorPaths at ha
  obtain ⟨i, hi, rfl⟩ := List.mem_map.mp ha
  have hcomps : (d.join c).comps = d.comps ++ [c] := FPath.join_comps d c hc
  by_cases hle : i ≤ d.comps.length
  · left
    show ((d.join c).comps.take i).length ≤ _
    rw [List.length_take]
    exact le_trans (Nat.min_le_left _ _) hle
  · right
    have hfull : (d.join c).comps.take i = (d.join c).comps := by
      apply List.take_of_length_le
      rw [hcomps]
      simp
      omega
    show FPath.mk (d.join c).root ((d.join c).comps.take i) = d.join c
    rw [hfull]

theorem mem_ancestorPaths_len (p a : FPath) (ha : a ∈ ancestorPaths p) :
    a.comps.length ≤ p.comps.length := by
  unfold ancestorPaths at ha
  obtain ⟨i, _, rfl⟩ := List.mem_map.mp ha
  show (p.comps.take i).length ≤ _
  rw [List.length_take]
  exact Nat.min_le_right _ _

theorem pathExists_false_of (fs : FS) (x : FPath)
    (hf : ∀ e ∈ fs.files, e.1 ≠ x) (hd : ∀ p ∈ fs.dirs, p ≠ x) : fs.pathExists x = false := by
  unfold FS.pathExists
  have h1 : fs.files.any (fun e => (e.1 = x : Bool)) = false :=
    List.any_eq_false.mpr (fun e he hx => hf e he (of_decide_eq_true hx))
  have h2 : fs.dirs.any (fun q => (q = x : Bool)) = false :=
    List.any_eq_false.mpr (fun q hq hx => hd q hq (of_decide_eq_true hx))
  rw [h1, h2]
  rfl

theorem pathExists_true_of_file (fs : FS) (x : FPath) (v : Nat) (h : (x, v) ∈ fs.files) :
    fs.pathExists x = true := by
  unfold FS.pathExists
  rw [Bool.or_eq_true]
  exact Or.inl (List.any_eq_true.mpr ⟨(x, v), h, by simp⟩)

theorem pathExists_true_of_dir (fs : FS) (x : FPath) (h : x ∈ fs.dirs) :
    fs.pathExists x = true := by
  unfold FS.pathExists
  rw [Bool.or_eq_true]
  exact Or.inr (List.any_eq_true.mpr ⟨x, h, by simp⟩)

/-- The real-run fold of `organize_files` over the files of a clean directory,
started from an arbitrary accumulated state. -/
def orgRun (d : FPath) (rules : Rules) (pending : List (String × Nat))
    (acc : List (FPath × Nat)) (dirsA : List FPath) (lfA : LogFile)
    (mv sk ts : Nat) (stats : List (String × Nat × Nat)) : OrgState :=
  (pending.map (fun nv => d.join nv.1)).foldl (processOne d rules false)
    ⟨⟨acc ++ pending.map (fun nv => (d.join nv.1, nv.2)), dirsA⟩, lfA, mv, sk, ts, stats⟩

theorem orgClean_fold (d : FPath) (rules : Rules) :
    ∀ (pending : List (String × Nat)) (acc : List (FPath × Nat)) (dirsA : List FPath)
      (lfA : LogFile) (msA : List Json) (mv sk ts : Nat) (stats : List (String × Nat × Nat)),
      (∀ nv ∈ pending, ValidName nv.1 ∧ ValidName (catOfName rules nv.1)) →
      ((pending.map Prod.fst).Nodup) →
      (∀ nv ∈ pending, ∀ e ∈ acc, e.1 ≠ tgtOfName d rules nv.1) →
      (∀ p ∈ dirsA, p.comps.length ≤ d.comps.length + 1) →
      loadMovesForAppend lfA = msA →
      (∀ e ∈ acc, e.1.comps.length = d.comps.length + 2) →
      ((orgRun d rules pending acc dirsA lfA mv sk ts stats).fs.files
          = (pending.map (fun nv => (tgtOfName d rules nv.1, nv.2))).reverse ++ acc
        ∧ (∀ p ∈ dirsA, p ∈ (orgRun d rules pending acc dirsA lfA mv sk ts stats).fs.dirs)
        ∧ (∀ p ∈ (orgRun d rules pending acc dirsA lfA mv sk ts stats).fs.dirs,
            p ∈ dirsA ∨ p.comps.length ≤ d.comps.length
              ∨ ∃ nv ∈ pending, p = d.join (catOfName rules nv.1))
        ∧ loadMovesForAppend (orgRun d rules pending acc dirsA lfA mv sk ts stats).lf
            = msA ++ pending.map (fun nv => moveRecord (d.join nv.1) (tgtOfName d rules nv.1))
        ∧ (pending ≠ [] → (orgRun d rules pending acc dirsA lfA mv sk ts stats).lf
            = LogFile.parsed (Json.arr (msA ++ pending.map
                (fun nv => moveRecord (d.join nv.1) (tgtOfName d rules nv.1)))))
        ∧ (orgRun d rules pending acc dirsA lfA mv sk ts stats).moved = mv + pending.length
        ∧ (orgRun d rules pending acc dirsA lfA mv sk ts stats).skipped = sk) := by
  intro pending
  induction pending with
  | nil =>
    intro acc dirsA lfA msA mv sk ts stats _ _ _ _ h5 _
    refine ⟨by simp [orgRun], fun p hp => hp, fun p hp => Or.inl hp, by simpa using h5,
      fun h => absurd rfl h, rfl, rfl⟩
  | cons nv rest ih =>
    intro acc dirsA lfA msA mv sk ts stats h1 h2 h3 h4 h5 h6
    obtain ⟨n, v⟩ := nv
    have hval : ValidName n := (h1 (n, v) (List.mem_cons_self _ _)).1
    have hcat : ValidName (catOfName rules n) := (h1 (n, v) (List.mem_cons_self _ _)).2
    have h1r : ∀ x ∈ rest, ValidName x.1 ∧ ValidName (catOfName rules x.1) :=
      fun x hx => h1 x (List.mem_cons_of_mem _ hx)
    have h2c := List.nodup_cons.mp h2
    have hname : (d.join n).name = n := FPath.name_join d n hval
    have hsrcc : (d.join n).comps = d.comps ++ [n] := FPath.join_comps d n hval
    have htlen : (tgtOfName d rules n).comps.length = d.comps.length + 2 :=
      tgtOfName_len d rules n hval hcat
    have horg : orgTarget d rules (d.join n) = tgtOfName d rules n := by
      unfold orgTarget tgtOfName catOfName
      rw [hname]
    have htdir : d.join (findTargetFolder (getFileExtension (d.join n).name) rules)
        = d.join (catOfName rules n) := by
      unfold catOfName
      rw [hname]
    have hex : (FS.mk (acc ++ (d.join n, v) :: rest.map (fun x => (d.join x.1, x.2)))
        dirsA).pathExists (tgtOfName d rules n) = false := by
      apply pathExists_false_of
      · intro e he
        rcases List.mem_append.mp he with hea | heb
        · exact h3 (n, v) (List.mem_cons_self _ _) e hea
        · rcases List.mem_cons.mp heb with rfl | hec
          · apply ne_of_comps_length
            rw [hsrcc, htlen]
            simp
          · obtain ⟨x, hx, rfl⟩ := List.mem_map.mp hec
            apply ne_of_comps_length
            rw [FPath.join_comps d x.1 (h1r x hx).1, htlen]
            simp
      · intro p hp
        apply ne_of_comps_length
        have := h4 p hp
        rw [htlen]
        omega
    have hacc_ne_src : ∀ e ∈ acc, e.1 ≠ d.join n := by
      intro e he
      apply ne_of_comps_length
      rw [h6 e he, hsrcc]
      simp
    have hrest_ne_src : ∀ e ∈ rest.map (fun x => (d.join x.1, x.2)), e.1 ≠ d.join n := by
      intro e he
      obtain ⟨x, hx, rfl⟩ := List.mem_map.mp he
      intro heq
      apply h2c.1
      rw [← FPath.join_inj d x.1 n (h1r x hx).1 hval heq]
      exact List.mem_map.mpr ⟨x, hx, rfl⟩
    have hstep : processOne d rules false
        ⟨⟨acc ++ (d.join n, v) :: rest.map (fun x => (d.join x.1, x.2)), dirsA⟩,
          lfA, mv, sk, ts, stats⟩ (d.join n)
        = ⟨⟨((tgtOfName d rules n, v) :: acc) ++ rest.map (fun x => (d.join x.1, x.2)),
              ((FS.mk (acc ++ (d.join n, v) :: rest.map (fun x => (d.join x.1, x.2)))
                dirsA).mkdirParents (d.join (catOfName rules n))).dirs⟩,
            logMove lfA (d.join n) (tgtOfName d rules n), mv + 1, sk,
            ts + ((FS.mk (acc ++ (d.join n, v) :: rest.map (fun x => (d.join x.1, x.2)))
                dirsA).lookupFile (d.join n)).getD 0,
            statsAdd stats (findTargetFolder (getFileExtension (d.join n).name) rules)
              (((FS.mk (acc ++ (d.join n, v) :: rest.map (fun x => (d.join x.1, x.2)))
                dirsA).lookupFile (d.join n)).getD 0)⟩ := by
      rw [processOne_eq, horg]
      rw [if_neg (by simp [hex]), if_neg (by simp)]
      rw [htdir]
      have hmove : ((FS.mk (acc ++ (d.join n, v) :: rest.map (fun x => (d.join x.1, x.2)))
            dirsA).mkdirParents (d.join (catOfName rules n))).move (d.join n)
            (tgtOfName d rules n)
          = ⟨(tgtOfName d rules n, v) :: (acc ++ rest.map (fun x => (d.join x.1, x.2))),
              ((FS.mk (acc ++ (d.join n, v) :: rest.map (fun x => (d.join x.1, x.2)))
                dirsA).mkdirParents (d.join (catOfName rules n))).dirs⟩ := by
        apply move_eq_of_shape _ _ _ v acc (rest.map (fun x => (d.join x.1, x.2)))
        · rw [FS.mkdirParents_files]
        · exact hacc_ne_src
        · exact hrest_ne_src
      rw [hmove]
      rfl
    have hrun : orgRun d rules ((n, v) :: rest) acc dirsA lfA mv sk ts stats
        = orgRun d rules rest ((tgtOfName d rules n, v) :: acc)
            (((FS.mk (acc ++ (d.join n, v) :: rest.map (fun x => (d.join x.1, x.2)))
              dirsA).mkdirParents (d.join (catOfName rules n))).dirs)
            (logMove lfA (d.join n) (tgtOfName d rules n)) (mv + 1) sk
            (ts + ((FS.mk (acc ++ (d.join n, v) :: rest.map (fun x => (d.join x.1, x.2)))
                dirsA).lookupFile (d.join n)).getD 0)
            (statsAdd stats (findTargetFolder (getFileExtension (d.join n).name) rules)
              (((FS.mk (acc ++ (d.join n, v) :: rest.map (fun x => (d.join x.1, x.2)))
                dirsA).lookupFile (d.join n)).getD 0)) := by
      unfold orgRun
      rw [List.map_cons, List.map_cons, List.foldl_cons, hstep]
    have hload1 : loadMovesForAppend (logMove lfA (d.join n) (tgtOfName d rules n))
        = msA ++ [moveRecord (d.join n) (tgtOfName d rules n)] := by
      show loadMovesForAppend lfA ++ [moveRecord (d.join n) (tgtOfName d rules n)] = _
      rw [h5]
    have h3r : ∀ x ∈ rest, ∀ e ∈ (tgtOfName d rules n, v) :: acc,
        e.1 ≠ tgtOfName d rules x.1 := by
      intro x hx e he
      rcases List.mem_cons.mp he with rfl | hea
      · refine tgtOfName_ne_of_name_ne d rules n x.1 hval (h1r x hx).1 ?_
        intro heq
        apply h2c.1
        rw [heq]
        exact List.mem_map.mpr ⟨x, hx, rfl⟩
      · exact h3 x (List.mem_cons_of_mem _ hx) e hea
    have h4r : ∀ p ∈ ((FS.mk (acc ++ (d.join n, v) :: rest.map (fun x => (d.join x.1, x.2)))
        dirsA).mkdirParents (d.join (catOfName rules n))).dirs,
        p.comps.length ≤ d.comps.length + 1 := by
      intro p hp
      rcases FS.mkdirParents_dirs_sub _ _ p hp with h | h
      · exact h4 p h
      · have := mem_ancestorPaths_len _ p h
        rw [FPath.join_comps d _ hcat] at this
        simpa using this
    have h6r : ∀ e ∈ (tgtOfName d rules n, v) :: acc,
        e.1.comps.length = d.comps.length + 2 := by
      intro e he
      rcases List.mem_cons.mp he with rfl | hea
      · exact htlen
      · exact h6 e hea
    obtain ⟨c1, c2, c3, c4, c5, c6, c7⟩ :=
      ih ((tgtOfName d rules n, v) :: acc)
        (((FS.mk (acc ++ (d.join n, v) :: rest.map (fun x => (d.join x.1, x.2)))
          dirsA).mkdirParents (d.join (catOfName rules n))).dirs)
        (logMove lfA (d.join n) (tgtOfName d rules n))
        (msA ++ [moveRecord (d.join n) (tgtOfName d rules n)]) (mv + 1) sk
        (ts + ((FS.mk (acc ++ (d.join n, v) :: rest.map (fun x => (d.join x.1, x.2)))
            dirsA).lookupFile (d.join n)).getD 0)
        (statsAdd stats (findTargetFolder (getFileExtension (d.join n).name) rules)
          (((FS.mk (acc ++ (d.join n, v) :: rest.map (fun x => (d.join x.1, x.2)))
            dirsA).lookupFile (d.join n)).getD 0))
        h1r h2c.2 h3r h4r hload1 h6r
    rw [hrun]
    refine ⟨?_, ?_, ?_, ?_, ?_, ?_, c7⟩
    · rw [c1]
      simp [List.reverse_cons, List.append_assoc]
    · intro p hp
      exact c2 p (FS.mkdirParents_dirs_mem _ _ p hp)
    · intro p hp
      rcases c3 p hp with h | h | ⟨x, hx, hxe⟩
      · rcases FS.mkdirParents_dirs_sub _ _ p h with h2 | h2
        · exact Or.inl h2
        · rcases mem_ancestorPaths_cases d _ hcat p h2 with h3a | h3a
          · exact Or.inr (Or.inl h3a)
          · exact Or.inr (Or.inr ⟨(n, v), List.mem_cons_self _ _, h3a⟩)
      · exact Or.inr (Or.inl h)
      · exact Or.inr (Or.inr ⟨x, List.mem_cons_of_mem _ hx, hxe⟩)
    · rw [c4]
      simp [List.append_assoc]
    · intro _
      cases rest with
      | nil =>
        show (orgRun d rules [] _ _ _ _ _ _ _).lf = _
        show logMove lfA (d.join n) (tgtOfName d rules n) = _
        show LogFile.parsed (Json.arr (loadMovesForAppend lfA
          ++ [moveRecord (d.join n) (tgtOfName d rules n)])) = _
        rw [h5]
        simp
      | cons r rs =>
        rw [c5 (by simp)]
        simp [List.append_assoc]
    · rw [c6]
      simp
      omega

theorem pathField_moveRecord_original (o t : FPath) :
    pathField (moveRecord o t) "original" = some (pathToString o) := rfl

theorem pathField_moveRecord_new (o t : FPath) :
    pathField (moveRecord o t) "new" = some (pathToString t) := rfl

theorem FS.mkdirParents_of_exists (fs : FS) (p : FPath) (h : fs.pathExists p = true) :
    fs.mkdirParents p = fs := by
  unfold FS.mkdirParents
  rw [if_pos h]

theorem undoStep_restore (st : UState) (m : Json) (o t : FPath)
    (ho : pathField m "original" = some (pathToString o))
    (hn : pathField m "new" = some (pathToString t))
    (hpo : parsePath (pathToString o) = o)
    (hpt : parsePath (pathToString t) = t)
    (hro : o.root = true) (hrt : t.root = true)
    (hex_t : st.fs.pathExists t = true)
    (hex_o : st.fs.pathExists o = false)
    (hex_par : st.fs.pathExists o.parent = true) :
    undoStep st m = some ⟨st.fs.move t o, st.restored + 1, st.skipped⟩ := by
  unfold undoStep
  rw [ho, hn]
  dsimp only
  rw [hpo, hpt, hro, hrt]
  rw [if_pos (show (true && true : Bool) = true from rfl)]
  rw [if_pos hex_t, if_neg (by simp [hex_o])]
  rw [FS.mkdirParents_of_exists st.fs o.parent hex_par]

theorem undoClean_fold (d : FPath) (rules : Rules)
    (hroot : d.root = true) (hdv : ∀ c ∈ d.comps, ValidName c) :
    ∀ (proc : List (String × Nat)) (acc : List (FPath × Nat)) (fsDirs : List FPath)
      (rs sk : Nat),
      (∀ nv ∈ proc, ValidName nv.1 ∧ ValidName (catOfName rules nv.1)) →
      ((proc.map Prod.fst).Nodup) →
      (∀ nv ∈ proc, ∀ e ∈ acc, e.1 ≠ d.join nv.1) →
      (∀ e ∈ acc, e.1.comps.length = d.comps.length + 1) →
      d ∈ fsDirs →
      (∀ nv ∈ proc, d.join nv.1 ∉ fsDirs) →
      processMoves (proc.map (fun nv => moveRecord (d.join nv.1) (tgtOfName d rules nv.1)))
          ⟨⟨acc ++ proc.map (fun nv => (tgtOfName d rules nv.1, nv.2)), fsDirs⟩, rs, sk⟩
        = some ⟨⟨(proc.map (fun nv => (d.join nv.1, nv.2))).reverse ++ acc, fsDirs⟩,
            rs + proc.length, sk⟩ := by
  intro proc
  induction proc with
  | nil =>
    intro acc fsDirs rs sk _ _ _ _ _ _
    simp [processMoves]
  | cons nv rest ih =>
    intro acc fsDirs rs sk h1 h2 h3 h4 hdin h5
    obtain ⟨n, v⟩ := nv
    have hval : ValidName n := (h1 (n, v) (List.mem_cons_self _ _)).1
    have hcat : ValidName (catOfName rules n) := (h1 (n, v) (List.mem_cons_self _ _)).2
    have h1r : ∀ x ∈ rest, ValidName x.1 ∧ ValidName (catOfName rules x.1) :=
      fun x hx => h1 x (List.mem_cons_of_mem _ hx)
    have h2c := List.nodup_cons.mp h2
    have hsrcc : (d.join n).comps = d.comps ++ [n] := FPath.join_comps d n hval
    have htc : (tgtOfName d rules n).comps = d.comps ++ [catOfName rules n, n] :=
      tgtOfName_comps d rules n hval hcat
    have htlen : (tgtOfName d rules n).comps.length = d.comps.length + 2 :=
      tgtOfName_len d rules n hval hcat
    have hparse_o : parsePath (pathToString (d.join n)) = d.join n := by
      apply parsePath_pathToString
      rw [hsrcc]
      intro c hc
      rcases List.mem_append.mp hc with h | h
      · exact ⟨(hdv c h).1, (hdv c h).2.1⟩
      · rcases List.mem_singleton.mp h with rfl
        exact ⟨hval.1, hval.2.1⟩
    have hparse_t : parsePath (pathToString (tgtOfName d rules n)) = tgtOfName d rules n := by
      apply parsePath_pathToString
      rw [htc]
      intro c hc
      rcases List.mem_append.mp hc with h | h
      · exact ⟨(hdv c h).1, (hdv c h).2.1⟩
      · rcases List.mem_cons.mp h with rfl | h
        · exact ⟨hcat.1, hcat.2.1⟩
        · rcases List.mem_singleton.mp h with rfl
          exact ⟨hval.1, hval.2.1⟩
    have hnp_mem : (tgtOfName d rules n, v)
        ∈ acc ++ (tgtOfName d rules n, v) :: rest.map (fun x => (tgtOfName d rules x.1, x.2)) :=
      List.mem_append.mpr (Or.inr (List.mem_cons_self _ _))
    have hop_ne : ∀ e ∈ acc ++ (tgtOfName d rules n, v)
        :: rest.map (fun x => (tgtOfName d rules x.1, x.2)), e.1 ≠ d.join n := by
      intro e he
      rcases List.mem_append.mp he with hea | heb
      · exact h3 (n, v) (List.mem_cons_self _ _) e hea
      · rcases List.mem_cons.mp heb with rfl | hec
        · apply ne_of_comps_length
          rw [htlen, hsrcc]
          simp
        · obtain ⟨x, hx, rfl⟩ := List.mem_map.mp hec
          apply ne_of_comps_length
          rw [tgtOfName_len d rules x.1 (h1r x hx).1 (h1r x hx).2, hsrcc]
          simp
    have hacc_ne_tgt : ∀ e ∈ acc, e.1 ≠ tgtOfName d rules n := by
      intro e he
      apply ne_of_comps_length
      rw [h4 e he, htlen]
      simp
    have hrest_ne_tgt : ∀ e ∈ rest.map (fun x => (tgtOfName d rules x.1, x.2)),
        e.1 ≠ tgtOfName d rules n := by
      intro e he
      obtain ⟨x, hx, rfl⟩ := List.mem_map.mp he
      refine tgtOfName_ne_of_name_ne d rules x.1 n (h1r x hx).1 hval ?_
      intro heq
      apply h2c.1
      rw [← heq]
      exact List.mem_map.mpr ⟨x, hx, rfl⟩
    have hdirs_ne : ∀ p ∈ fsDirs, p ≠ d.join n := by
      intro p hp heq
      exact h5 (n, v) (List.mem_cons_self _ _) (heq ▸ hp)
    have hsplit0 : (FS.mk (acc ++ (tgtOfName d rules n, v)
          :: rest.map (fun x => (tgtOfName d rules x.1, x.2))) fsDirs).files
        = acc ++ (tgtOfName d rules n, v) :: rest.map (fun x => (tgtOfName d rules x.1, x.2)) :=
      rfl
    have hmove : (FS.mk (acc ++ (tgtOfName d rules n, v)
          :: rest.map (fun x => (tgtOfName d rules x.1, x.2))) fsDirs).move
          (tgtOfName d rules n) (d.join n)
        = ⟨(d.join n, v) :: (acc ++ rest.map (fun x => (tgtOfName d rules x.1, x.2))),
            fsDirs⟩ :=
      move_eq_of_shape _ _ _ v acc _ hsplit0 hacc_ne_tgt hrest_ne_tgt
    have hstep : undoStep
        ⟨⟨acc ++ (tgtOfName d rules n, v) :: rest.map (fun x => (tgtOfName d rules x.1, x.2)),
            fsDirs⟩, rs, sk⟩
        (moveRecord (d.join n) (tgtOfName d rules n))
        = some ⟨⟨((d.join n, v) :: acc) ++ rest.map (fun x => (tgtOfName d rules x.1, x.2)),
            fsDirs⟩, rs + 1, sk⟩ := by
      rw [undoStep_restore
        ⟨⟨acc ++ (tgtOfName d rules n, v) :: rest.map (fun x => (tgtOfName d rules x.1, x.2)),
            fsDirs⟩, rs, sk⟩
        (moveRecord (d.join n) (tgtOfName d rules n)) (d.join n) (tgtOfName d rules n)
        (pathField_moveRecord_original _ _) (pathField_moveRecord_new _ _)
        hparse_o hparse_t
        (by rw [FPath.join_root d n hval, hroot])
        (by rw [tgtOfName_root d rules n hval hcat, hroot])
        (pathExists_true_of_file _ _ v hnp_mem)
        (pathExists_false_of _ _ hop_ne hdirs_ne)
        (by
          rw [FPath.parent_join d n hval]
          exact pathExists_true_of_dir _ d hdin)]
      rw [hmove]
      rfl
    simp only [List.map_cons, List.length_cons]
    show (undoStep _ _).bind _ = _
    rw [hstep, Option.some_bind]
    have h3r : ∀ x ∈ rest, ∀ e ∈ (d.join n, v) :: acc, e.1 ≠ d.join x.1 := by
      intro x hx e he
      rcases List.mem_cons.mp he with rfl | hea
      · intro heq
        apply h2c.1
        rw [FPath.join_inj d n x.1 hval (h1r x hx).1 heq]
        exact List.mem_map.mpr ⟨x, hx, rfl⟩
      · exact h3 x (List.mem_cons_of_mem _ hx) e hea
    have h4r : ∀ e ∈ (d.join n, v) :: acc, e.1.comps.length = d.comps.length + 1 := by
      intro e he
      rcases List.mem_cons.mp he with rfl | hea
      · rw [hsrcc]; simp
      · exact h4 e hea
    have hrec := ih ((d.join n, v) :: acc) fsDirs (rs + 1) sk h1r h2c.2 h3r h4r hdin
      (fun x hx => h5 x (List.mem_cons_of_mem _ hx))
    rw [hrec]
    simp only [List.reverse_cons, List.append_assoc, List.singleton_append]
    have hcnt : rs + 1 + rest.length = rs + (rest.length + 1) := by omega
    rw [hcnt]

/-- A clean directory: the files of `N` (name, content) directly inside `d`,
nothing else, and no move log yet. -/
def cleanFS (d : FPath) (N : List (String × Nat)) : FS :=
  ⟨N.map (fun nv => (d.join nv.1, nv.2)), [d]⟩

theorem listingOf_clean (d : FPath) (N : List (String × Nat))
    (hval : ∀ nv ∈ N, ValidName nv.1)
    (hex : ∀ nv ∈ N, nv.1 ∉ excludedNames) :
    listingOf (cleanFS d N) d = N.map (fun nv => d.join nv.1) := by
  unfold listingOf cleanFS
  show ((N.map (fun nv => (d.join nv.1, nv.2))).map Prod.fst).filter _ = _
  rw [List.map_map]
  show (N.map (fun nv => d.join nv.1)).filter _ = _
  apply List.filter_eq_self.mpr
  intro p hp
  obtain ⟨nv, hnv, rfl⟩ := List.mem_map.mp hp
  have h1 : (d.join nv.1).parent = d := FPath.parent_join d nv.1 (hval nv hnv)
  have h2 : (d.join nv.1).name = nv.1 := FPath.name_join d nv.1 (hval nv hnv)
  rw [h2, h1, contains_eq_false_of_not_mem (hex nv hnv)]
  simp

/-- C1 counterexample: two runs in which organize → undo does not restore the
files, although there are no collisions, no filesystem errors, no retry
declines, and the confirmation is given.  (a) The directory is supplied as
the relative default `"."` holding `a.pdf`: the log records relative paths,
undo rejects the record, nothing is restored.  (b) The absolute directory
`/t` holds `Images` (an extensionless file) and `photo.jpg`: organize moves
`Images` into `Other/` and creates a folder `Images/` for `photo.jpg`; on
undo, the original location `/t/Images` is now occupied by that folder, so
the file `Images` is skipped and stays in `Other/`. -/
theorem organize_undo_roundtrip_cex :
    ((undo ⟨false, []⟩
        (organize ⟨false, []⟩ [("Documents", [".pdf"])] false
          ⟨[(⟨false, ["a.pdf"]⟩, 1)], [⟨false, []⟩]⟩ LogFile.missing).fs
        (organize ⟨false, []⟩ [("Documents", [".pdf"])] false
          ⟨[(⟨false, ["a.pdf"]⟩, 1)], [⟨false, []⟩]⟩ LogFile.missing).lf
        true).map
        (fun st => (st.fs.lookupFile ⟨false, ["a.pdf"]⟩, st.restored, st.skipped))
      = some (none, 0, 1))
    ∧ ((undo ⟨true, ["t"]⟩
        (organize ⟨true, ["t"]⟩ [("Images", [".jpg"])] false
          ⟨[(⟨true, ["t", "Images"]⟩, 1), (⟨true, ["t", "photo.jpg"]⟩, 2)], [⟨true, ["t"]⟩]⟩
          LogFile.missing).fs
        (organize ⟨true, ["t"]⟩ [("Images", [".jpg"])] false
          ⟨[(⟨true, ["t", "Images"]⟩, 1), (⟨true, ["t", "photo.jpg"]⟩, 2)], [⟨true, ["t"]⟩]⟩
          LogFile.missing).lf
        true).map
        (fun st => (st.fs.lookupFile ⟨true, ["t", "Images"]⟩, st.restored, st.skipped))
      = some (none, 1, 1)) :=
  ⟨rfl, rfl⟩

/-- C1 (amended): on a clean directory given by an absolute path, holding
files with legal names none of which collides with the tool's own log file
names or with a category folder name the run assigns, a real organize run
followed by a confirmed undo restores every file to its original path: the
final file map is exactly the initial one (the created category folders may
remain, but they are empty).  Single-path-component category names and
well-formed file names are assumed, as for a real configuration and
filesystem. -/
theorem organize_undo_roundtrip_amended (d : FPath) (rules : Rules)
    (N : List (String × Nat))
    (hroot : d.root = true)
    (hdv : ∀ c ∈ d.comps, ValidName c)
    (hnames : ∀ nv ∈ N, ValidName nv.1)
    (hnodup : (N.map Prod.fst).Nodup)
    (hex : ∀ nv ∈ N, nv.1 ∉ excludedNames)
    (hcats : ∀ nv ∈ N, ValidName (catOfName rules nv.1))
    (hnc : ∀ nv ∈ N, ∀ mv2 ∈ N, nv.1 ≠ catOfName rules mv2.1)
    (hne : N ≠ []) :
    ∃ st : UState,
      undo d (organize d rules false (cleanFS d N) LogFile.missing).fs
        (organize d rules false (cleanFS d N) LogFile.missing).lf true = some st
      ∧ st.fs.files = (cleanFS d N).files
      ∧ st.restored = N.length ∧ st.skipped = 0 := by
  have h1 : ∀ nv ∈ N, ValidName nv.1 ∧ ValidName (catOfName rules nv.1) :=
    fun nv h => ⟨hnames nv h, hcats nv h⟩
  have hlist := listingOf_clean d N hnames hex
  have hcontains : (cleanFS d N).dirs.contains d = true :=
    fpath_contains_eq_true_of_mem (List.mem_singleton_self d)
  have hnonempty : (listingOf (cleanFS d N) d).isEmpty = false := by
    rw [hlist]
    cases N with
    | nil => exact absurd rfl hne
    | cons a b => rfl
  have horg_run : organize d rules false (cleanFS d N) LogFile.missing
      = orgRun d rules N [] [d] LogFile.missing 0 0 0 [] := by
    rw [organize_eq, if_pos hcontains, if_neg (by rw [hnonempty]; simp), hlist]
    rfl
  obtain ⟨c1, c2, c3, c4, c5, c6, c7⟩ :=
    orgClean_fold d rules N [] [d] LogFile.missing [] 0 0 0 [] h1 hnodup
      (fun _ _ e he => absurd he (List.not_mem_nil e))
      (by
        intro p hp
        rcases List.mem_singleton.mp hp with rfl
        omega)
      rfl
      (fun e he => absurd he (List.not_mem_nil e))
  rw [horg_run]
  have hlf : (orgRun d rules N [] [d] LogFile.missing 0 0 0 []).lf
      = LogFile.parsed (Json.arr (N.map
          (fun nv => moveRecord (d.join nv.1) (tgtOfName d rules nv.1)))) := by
    have := c5 hne
    simpa using this
  have hdin : d ∈ (orgRun d rules N [] [d] LogFile.missing 0 0 0 []).fs.dirs :=
    c2 d (List.mem_singleton_self d)
  have hobj : (N.map (fun nv => moveRecord (d.join nv.1) (tgtOfName d rules nv.1))).all isObj
      = true := by
    apply List.all_eq_true.mpr
    intro x hx
    obtain ⟨nv, _, rfl⟩ := List.mem_map.mp hx
    rfl
  have hundo : undo d (orgRun d rules N [] [d] LogFile.missing 0 0 0 []).fs
      (orgRun d rules N [] [d] LogFile.missing 0 0 0 []).lf true
      = processMoves ((N.map (fun nv => moveRecord (d.join nv.1)
          (tgtOfName d rules nv.1))).reverse)
        ⟨(orgRun d rules N [] [d] LogFile.missing 0 0 0 []).fs, 0, 0⟩ := by
    rw [hlf]
    exact undo_parsed_arr d _ _ (fpath_contains_eq_true_of_mem hdin) hobj
  have hfs_eq : (orgRun d rules N [] [d] LogFile.missing 0 0 0 []).fs
      = FS.mk ([] ++ N.reverse.map (fun nv => (tgtOfName d rules nv.1, nv.2)))
          (orgRun d rules N [] [d] LogFile.missing 0 0 0 []).fs.dirs := by
    have heta : (orgRun d rules N [] [d] LogFile.missing 0 0 0 []).fs
        = FS.mk (orgRun d rules N [] [d] LogFile.missing 0 0 0 []).fs.files
            (orgRun d rules N [] [d] LogFile.missing 0 0 0 []).fs.dirs := rfl
    rw [heta, c1]
    simp [List.map_reverse]
  have h5u : ∀ nv ∈ N.reverse, d.join nv.1
      ∉ (orgRun d rules N [] [d] LogFile.missing 0 0 0 []).fs.dirs := by
    intro nv hnv hmem
    have hnvN : nv ∈ N := List.mem_reverse.mp hnv
    rcases c3 (d.join nv.1) hmem with h | h | ⟨x, hx, hxe⟩
    · rcases List.mem_singleton.mp h with heq
      have hlen : (d.join nv.1).comps.length = d.comps.length := by rw [heq]
      rw [FPath.join_comps d nv.1 (hnames nv hnvN)] at hlen
      simp at hlen
    · rw [FPath.join_comps d nv.1 (hnames nv hnvN)] at h
      simp at h
    · exact hnc nv hnvN x hx (FPath.join_inj d nv.1 _ (hnames nv hnvN) (hcats x hx) hxe)
  have hfold := undoClean_fold d rules hroot hdv N.reverse []
    (orgRun d rules N [] [d] LogFile.missing 0 0 0 []).fs.dirs 0 0
    (fun nv hnv => h1 nv (List.mem_reverse.mp hnv))
    (by
      rw [List.map_reverse]
      exact List.nodup_reverse.mpr hnodup)
    (fun _ _ e he => absurd he (List.not_mem_nil e))
    (fun e he => absurd he (List.not_mem_nil e))
    hdin h5u
  refine ⟨⟨⟨(N.reverse.map (fun nv => (d.join nv.1, nv.2))).reverse ++ [],
      (orgRun d rules N [] [d] LogFile.missing 0 0 0 []).fs.dirs⟩,
      0 + N.reverse.length, 0⟩, ?_, ?_, ?_, rfl⟩
  · rw [hundo]
    rw [show (N.map (fun nv => moveRecord (d.join nv.1) (tgtOfName d rules nv.1))).reverse
        = N.reverse.map (fun nv => moveRecord (d.join nv.1) (tgtOfName d rules nv.1)) from
      (List.map_reverse _ _).symm]
    conv_lhs => rw [hfs_eq]
    exact hfold
  · show (N.reverse.map (fun nv => (d.join nv.1, nv.2))).reverse ++ []
      = (cleanFS d N).files
    simp [List.map_reverse, cleanFS]
  · show 0 + N.reverse.length = N.length
    simp

/-- C1 witness: a clean absolute directory `/tmp` with `a.pdf` and `b.txt`
under the rule `Documents: [".pdf"]`; organize then confirmed undo restores
both files (2 restored, 0 skipped) and the file map equals the initial one. -/
theorem organize_undo_roundtrip_amended_witness :
    ∃ st : UState,
      undo ⟨true, ["tmp"]⟩
        (organize ⟨true, ["tmp"]⟩ [("Documents", [".pdf"])] false
          (cleanFS ⟨true, ["tmp"]⟩ [("a.pdf", 5), ("b.txt", 6)]) LogFile.missing).fs
        (organize ⟨true, ["tmp"]⟩ [("Documents", [".pdf"])] false
          (cleanFS ⟨true, ["tmp"]⟩ [("a.pdf", 5), ("b.txt", 6)]) LogFile.missing).lf true
        = some st
      ∧ st.fs.files = (cleanFS ⟨true, ["tmp"]⟩ [("a.pdf", 5), ("b.txt", 6)]).files
      ∧ st.restored = [("a.pdf", 5), ("b.txt", 6)].length ∧ st.skipped = 0 :=
  organize_undo_roundtrip_amended ⟨true, ["tmp"]⟩ [("Documents", [".pdf"])]
    [("a.pdf", 5), ("b.txt", 6)] rfl (by decide) (by decide) (by decide) (by decide)
    (by decide) (by decide) (by decide)
